import Mathlib

/-!
Verification of the movie_info indexing/metadata subsystem.

This file shallowly embeds the TypeScript sources of the repository:

* `src/main/services/nfo.ts` — the NFO (Kodi XML sidecar) codec:
  `normalizeNfoData`, `denormalizeNfoData`, `readNfo`, `saveNfo`,
  `createEmptyNfo` and their helpers;
* `src/main/services/scanner.ts` — the incremental directory scanner:
  `parseCdInfo` (with its regex `CD_PATTERN`), `scanDirectory`,
  `scanDirectories`, `getFileSizes`, `findNfoFileFromCache`,
  `resolveUncPath`, and the `DirCache` structure;
* the renderer sources — `groupVideos` (multi-part grouping),
  `dupGroups` (duplicate clustering) and `handleSmartSelect`
  (quality-based selection).

Modelling conventions, applied uniformly:

* JavaScript values coming out of the XML parser are modelled by the
  inductive type `JsVal`; JS objects are association lists in key
  insertion order, and property access on a missing key is `Option.none`
  (JS `undefined`).  The external `fast-xml-parser` library is not
  repository code; parsing and building are therefore modelled at the
  level of the already-parsed object tree, which is exactly the
  interface the repository code consumes and produces.
* Asynchronous I/O is modelled by explicit state passing.  The
  `onFound` streaming callback becomes an `emitted` list on the scan
  state; `Promise.allSettled` over a batch becomes a sequential fold
  (the repository only ever observes the set of callback invocations
  and the final state, and sibling directory scans touch disjoint
  cache keys).
* Fallible filesystem primitives (`stat`, `readdir`, `copyFile`,
  `writeFile`) return `Option`; a `try/catch` in the source becomes a
  `match` on that option.
* JS numbers that the code only ever uses as integers (sizes, indices,
  timestamps, codec ranks) are `Nat`/`Int`.
* Recursion over the directory graph, which is unbounded in JS, uses
  an explicit fuel parameter; every theorem quantifies over the fuel.
* JS `Array.prototype.sort` is, per the ECMAScript specification,
  stable; with the consistent comparators used by the repository its
  result is the unique stable sorted permutation, which we compute
  with a stable insertion sort (`jsSort`).
-/

namespace MovieInfo

/-! ## JS value model for parsed XML

The repository parses NFO files with `fast-xml-parser` configured with
`ignoreAttributes:false`, `attributeNamePrefix:"@_"`, `trimValues:true`
and an `isArray` whitelist.  The parser hands the repository a plain JS
value: strings, numbers, booleans, arrays and objects.  `JsVal` models
those values; attribute keys keep their `@_` prefix and element text
uses the `#text` key, exactly as the library delivers them. -/

inductive JsVal where
  | str (s : String)
  | num (n : Int)
  | bool (b : Bool)
  | arr (elems : List JsVal)
  | obj (fields : List (String × JsVal))
deriving Repr

mutual

/-- Structural equality on `JsVal`, modelling the `===` comparisons the
codec performs on parsed scalar values (cross-type comparison is
`false`, matching strict equality). -/
def JsVal.beq : JsVal → JsVal → Bool
  | .str a, .str b => a == b
  | .num a, .num b => a == b
  | .bool a, .bool b => a == b
  | .arr a, .arr b => JsVal.beqList a b
  | .obj a, .obj b => JsVal.beqFields a b
  | _, _ => false

def JsVal.beqList : List JsVal → List JsVal → Bool
  | [], [] => true
  | x :: xs, y :: ys => x.beq y && JsVal.beqList xs ys
  | _, _ => false

def JsVal.beqFields : List (String × JsVal) → List (String × JsVal) → Bool
  | [], [] => true
  | (k, v) :: xs, (k2, v2) :: ys => k == k2 && v.beq v2 && JsVal.beqFields xs ys
  | _, _ => false

end

instance : BEq JsVal := ⟨JsVal.beq⟩

/-- Property access `o[k]` on a JS object modelled as an association
list; a missing key is JS `undefined`, i.e. `none`. -/
def jsGet (fields : List (String × JsVal)) (k : String) : Option JsVal :=
  match fields with
  | [] => none
  | (k2, v) :: rest => if k2 = k then some v else jsGet rest k

/-- Property table of a JS value: objects expose their fields; property
access on any other value (string, number, array, …) yields
`undefined` for the keys the repository reads, which `[]` models. -/
def jsProps : JsVal → List (String × JsVal)
  | .obj fields => fields
  | _ => []

/-- JS truthiness test, negated: `!val` in the sources.  Empty string,
zero and `false` are falsy; arrays and objects are always truthy. -/
def jsFalsy : JsVal → Bool
  | .str s => s = ""
  | .num n => n = 0
  | .bool b => !b
  | .arr _ => false
  | .obj _ => false

mutual

/-- JS `String(v)` coercion as used by the codec helpers: strings are
themselves, numbers and booleans print, arrays join their elements with
commas and plain objects print as `[object Object]`. -/
def jsString : JsVal → String
  | .str s => s
  | .num n => toString n
  | .bool b => if b then "true" else "false"
  | .arr elems => String.intercalate "," (jsStringList elems)
  | .obj _ => "[object Object]"

/-- `String(...)` mapped over array elements. -/
def jsStringList : List JsVal → List String
  | [] => []
  | v :: vs => jsString v :: jsStringList vs

end

/-- Upsert `m[k] = v` on a JS object: overwrite in place if the key is
present (JS keeps the original insertion position), else append. -/
def jsSet (fields : List (String × JsVal)) (k : String) (v : JsVal) :
    List (String × JsVal) :=
  match fields with
  | [] => [(k, v)]
  | (k2, v2) :: rest =>
    if k2 = k then (k2, v) :: rest else (k2, v2) :: jsSet rest k v

/-! ## The NfoData record (src/common/types.ts)

`NfoData` in `types.ts` declares the explicitly modelled fields below
plus an index signature documented as "Raw fields we don't explicitly
handle — preserved on save".  The object literal that
`normalizeNfoData` actually returns carries only the explicit fields,
which is precisely what this structure captures; whether anything else
survives is the subject of claim C1.  `uniqueids` is a
`Record<string,string>`, modelled as an association list in key
insertion order. -/

structure NfoActor where
  name : String
  role : String
  order : Option Int
  thumb : Option String
deriving Repr, DecidableEq

structure NfoRating where
  name : String
  value : Int
  votes : Int
  max : Int
  default : Bool
deriving Repr, DecidableEq

structure NfoData where
  title : String
  originaltitle : String
  sorttitle : String
  year : String
  premiered : String
  plot : String
  outline : String
  tagline : String
  runtime : String
  mpaa : String
  genres : List String
  directors : List String
  credits : List String
  studios : List String
  countries : List String
  tags : List String
  actors : List NfoActor
  ratings : List NfoRating
  userrating : String
  uniqueids : List (String × String)
  poster : String
  fanart : String
  trailer : String
deriving Repr, DecidableEq

/-! ## nfo.ts helpers -/

/-- `getString` from nfo.ts: `undefined`/`null` become `""`, everything
else is coerced with `String(...)`. -/
def getString (val : Option JsVal) : String :=
  match val with
  | none => ""
  | some v => jsString v

/-- `toStringArray` from nfo.ts: falsy input gives `[]`, an array maps
`String` over its elements, anything else wraps into a singleton. -/
def toStringArray (val : Option JsVal) : List String :=
  match val with
  | none => []
  | some v =>
    if jsFalsy v then []
    else match v with
      | .arr elems => elems.map jsString
      | _ => [jsString v]

/-- JS `Number(v) || 0` as used on rating values and votes: numbers pass
through, a string of decimal digits parses, everything else (NaN cases)
collapses to `0`.  The repository only ever reads integral values here;
fractional text is outside the model and also collapses to `0`. -/
def jsNumOr0 (val : Option JsVal) : Int :=
  match val with
  | some (.num n) => n
  | some (.bool b) => if b then 1 else 0
  | some (.str s) =>
    match s.toNat? with
    | some n => (n : Int)
    | none => 0
  | _ => 0

/-- `parseActors` from nfo.ts. -/
def parseActors (val : Option JsVal) : List NfoActor :=
  match val with
  | none => []
  | some v =>
    if jsFalsy v then []
    else
      let arr := match v with
        | .arr elems => elems
        | _ => [v]
      arr.map fun a =>
        { name := getString (jsGet (jsProps a) "name")
          role := getString (jsGet (jsProps a) "role")
          order := match jsGet (jsProps a) "order" with
            | some (.num n) => some n
            | _ => none
          thumb :=
            let t := getString (jsGet (jsProps a) "thumb")
            if t = "" then none else some t }

/-- `parseRatings` from nfo.ts: takes the raw `movie.ratings` container
value, reads its `rating` property, normalises to a list. -/
def parseRatings (val : Option JsVal) : List NfoRating :=
  match val with
  | none => []
  | some v =>
    if jsFalsy v then []
    else
      match jsGet (jsProps v) "rating" with
      | none => []
      | some ratings =>
        if jsFalsy ratings then []
        else
          let arr := match ratings with
            | .arr elems => elems
            | _ => [ratings]
          arr.map fun r =>
            { name := getString (jsGet (jsProps r) "@_name")
              value := jsNumOr0 (jsGet (jsProps r) "value")
              votes := jsNumOr0 (jsGet (jsProps r) "votes")
              max :=
                let m := jsNumOr0 (jsGet (jsProps r) "@_max")
                if m = 0 then 10 else m
              default :=
                match jsGet (jsProps r) "@_default" with
                | none => false
                | some d => !jsFalsy d }

/-- `parseUniqueIds` from nfo.ts: each object-like entry contributes
`result[type ∨ "default"] = text`. -/
def parseUniqueIds (val : Option JsVal) : List (String × JsVal) :=
  match val with
  | none => []
  | some v =>
    let arr := match v with
      | .arr elems => elems
      | _ => [v]
    arr.foldl
      (fun result uid =>
        match uid with
        | .obj _ | .arr _ =>
          let ty :=
            let t := getString (jsGet (jsProps uid) "@_type")
            if t = "" then "default" else t
          jsSet result ty (JsVal.str (getString (jsGet (jsProps uid) "#text")))
        | _ => result)
      []

/-- Flatten the `jsSet`-based accumulator of `parseUniqueIds` to string
pairs (every stored value is a `.str`). -/
def parseUniqueIdsStr (val : Option JsVal) : List (String × String) :=
  (parseUniqueIds val).map fun kv => (kv.1, match kv.2 with
    | .str s => s
    | v => jsString v)

/-- `parsePosterThumb` from nfo.ts: pick the array element whose
`@_aspect` is `"poster"` or the first plain string, else fall back on
text content. -/
def parsePosterThumb (val : Option JsVal) : String :=
  match val with
  | none => ""
  | some v =>
    if jsFalsy v then ""
    else match v with
      | .arr elems =>
        match elems.find? (fun t =>
            jsGet (jsProps t) "@_aspect" == some (JsVal.str "poster")
              || (match t with | .str _ => true | _ => false)) with
        | some (.str s) => s
        | some t => getString (jsGet (jsProps t) "#text")
        | none => ""
      | .str s => s
      | t => getString (jsGet (jsProps t) "#text")

/-- `parseFanart` from nfo.ts: the first nested `thumb` under the
fanart container. -/
def parseFanart (val : Option JsVal) : String :=
  match val with
  | none => ""
  | some v =>
    if jsFalsy v then ""
    else
      match jsGet (jsProps v) "thumb" with
      | some (.arr (first :: _)) =>
        match first with
        | .str s => s
        | t => getString (jsGet (jsProps t) "#text")
      | some (.arr []) => ""
      | some (.str s) => s
      | some (.obj fields) => getString (jsGet fields "#text")
      | some _ => ""
      | none => ""

/-- `normalizeNfoData` from nfo.ts, verbatim: builds the `NfoData`
object literal from the parsed `movie` element. -/
def normalizeNfoData (movie : List (String × JsVal)) : NfoData :=
  { title := getString (jsGet movie "title")
    originaltitle := getString (jsGet movie "originaltitle")
    sorttitle := getString (jsGet movie "sorttitle")
    year := getString (jsGet movie "year")
    premiered := getString (jsGet movie "premiered")
    plot := getString (jsGet movie "plot")
    outline := getString (jsGet movie "outline")
    tagline := getString (jsGet movie "tagline")
    runtime := getString (jsGet movie "runtime")
    mpaa := getString (jsGet movie "mpaa")
    genres := toStringArray (jsGet movie "genre")
    directors := toStringArray (jsGet movie "director")
    credits := toStringArray (jsGet movie "credits")
    studios := toStringArray (jsGet movie "studio")
    countries := toStringArray (jsGet movie "country")
    tags := toStringArray (jsGet movie "tag")
    actors := parseActors (jsGet movie "actor")
    ratings := parseRatings (jsGet movie "ratings")
    userrating := getString (jsGet movie "userrating")
    uniqueids := parseUniqueIdsStr (jsGet movie "uniqueid")
    poster := parsePosterThumb (jsGet movie "thumb")
    fanart := parseFanart (jsGet movie "fanart")
    trailer := getString (jsGet movie "trailer") }

/-- `denormalizeNfoData` from nfo.ts: rebuilds the XML-compatible
`movie` object, emitting each field only when truthy/non-empty, in the
exact key order of the source. -/
def denormalizeNfoData (data : NfoData) : List (String × JsVal) :=
  let addIf (k : String) (s : String) (m : List (String × JsVal)) :
      List (String × JsVal) :=
    if s ≠ "" then m ++ [(k, JsVal.str s)] else m
  let addList (k : String) (l : List String) (m : List (String × JsVal)) :
      List (String × JsVal) :=
    if l ≠ [] then m ++ [(k, JsVal.arr (l.map JsVal.str))] else m
  let m : List (String × JsVal) := []
  let m := addIf "title" data.title m
  let m := addIf "originaltitle" data.originaltitle m
  let m := addIf "sorttitle" data.sorttitle m
  let m := addIf "year" data.year m
  let m := addIf "premiered" data.premiered m
  let m := addIf "plot" data.plot m
  let m := addIf "outline" data.outline m
  let m := addIf "tagline" data.tagline m
  let m := addIf "runtime" data.runtime m
  let m := addIf "mpaa" data.mpaa m
  let m := addIf "userrating" data.userrating m
  let m := addIf "trailer" data.trailer m
  let m := addList "genre" data.genres m
  let m := addList "director" data.directors m
  let m := addList "credits" data.credits m
  let m := addList "studio" data.studios m
  let m := addList "country" data.countries m
  let m := addList "tag" data.tags m
  let m :=
    if data.actors ≠ [] then
      m ++ [("actor", JsVal.arr (data.actors.map fun a =>
        let o : List (String × JsVal) := [("name", JsVal.str a.name)]
        let o := if a.role ≠ "" then o ++ [("role", JsVal.str a.role)] else o
        let o := match a.order with
          | some n => o ++ [("order", JsVal.num n)]
          | none => o
        let o := match a.thumb with
          | some t => if t ≠ "" then o ++ [("thumb", JsVal.str t)] else o
          | none => o
        JsVal.obj o))]
    else m
  let m :=
    if data.ratings ≠ [] then
      m ++ [("ratings", JsVal.obj [("rating", JsVal.arr
        (data.ratings.map fun r => JsVal.obj
          [("@_name", JsVal.str r.name),
           ("@_max", JsVal.num r.max),
           ("@_default", JsVal.bool r.default),
           ("value", JsVal.num r.value),
           ("votes", JsVal.num r.votes)]))])]
    else m
  let m :=
    if data.uniqueids ≠ [] then
      m ++ [("uniqueid", JsVal.arr (data.uniqueids.map fun kv =>
        JsVal.obj [("@_type", JsVal.str kv.1), ("#text", JsVal.str kv.2)]))]
    else m
  m

/-- `readNfo` from nfo.ts, at the parsed-object level: the document is
the object produced by the XML parser on a well-formed input, and
`parsed.movie || {}` falls back to the empty object when the `movie`
key is absent or falsy.  Property access on a non-object `movie` value
reads `undefined` everywhere, which `jsProps` models. -/
def readNfoParsed (parsed : List (String × JsVal)) : NfoData :=
  let movie : List (String × JsVal) :=
    match jsGet parsed "movie" with
    | none => []
    | some v => if jsFalsy v then [] else jsProps v
  normalizeNfoData movie

/-- `createEmptyNfo` from nfo.ts. -/
def createEmptyNfo : NfoData :=
  { title := ""
    originaltitle := ""
    sorttitle := ""
    year := ""
    premiered := ""
    plot := ""
    outline := ""
    tagline := ""
    runtime := ""
    mpaa := ""
    genres := []
    directors := []
    credits := []
    studios := []
    countries := []
    tags := []
    actors := []
    ratings := []
    userrating := ""
    uniqueids := []
    poster := ""
    fanart := ""
    trailer := "" }

/-- The top-level tags `denormalizeNfoData` can ever emit (read off its
code): everything else is absent from serialized output. -/
def emittedKeys : List String :=
  ["title", "originaltitle", "sorttitle", "year", "premiered", "plot",
   "outline", "tagline", "runtime", "mpaa", "userrating", "trailer",
   "genre", "director", "credits", "studio", "country", "tag", "actor",
   "ratings", "uniqueid"]

/-! ## Filename parsing (scanner.ts `parseCdInfo`)

`parseCdInfo` computes `basename(fileName, extname(fileName))` and
matches it against `CD_PATTERN = /[-_ .](cd|disc|disk|part)(\d+)$/i`.
Strings are modelled as `List Char` here.  `extnameL` follows Node's
`path.extname` for a bare entry name (no path separators): the suffix
from the last dot, except that a lone leading dot or the special name
`".."` yields the empty extension.  Since `extname` returns either `""`
or a proper suffix of the name, `basename(name, extname(name))` is
exactly the name with that suffix removed, which `stripExtL` computes. -/

/-- Index of the last `'.'` in the character list, if any. -/
def lastDotIdx (s : List Char) : Option Nat :=
  match s.reverse.findIdx? (fun c => c = '.') with
  | some j => some (s.length - 1 - j)
  | none => none

/-- Node `path.extname` on a bare file name. -/
def extnameL (s : List Char) : List Char :=
  match lastDotIdx s with
  | none => []
  | some i =>
    if i = 0 then []
    else if s = ['.', '.'] then []
    else s.drop i

/-- `basename(fileName, extname(fileName))` from the sources: strip the
extension suffix. -/
def stripExtL (s : List Char) : List Char :=
  s.take (s.length - (extnameL s).length)

/-- Separator class `[-_ .]` of `CD_PATTERN`. -/
def isSepChar (c : Char) : Bool :=
  c = '-' || c = '_' || c = ' ' || c = '.'

/-- The keyword alternation `(cd|disc|disk|part)` of `CD_PATTERN`, in
the order the regex tries it, lower-cased. -/
def cdKeywords : List (List Char) :=
  [['c', 'd'], ['d', 'i', 's', 'c'], ['d', 'i', 's', 'k'],
   ['p', 'a', 'r', 't']]

/-- Case-insensitive literal match of the lower-case pattern `p` against
a prefix of `l`; returns the rest on success.  Models the regex `/i`
flag on ASCII pattern letters. -/
def stripPrefixCI : List Char → List Char → Option (List Char)
  | [], l => some l
  | _ :: _, [] => none
  | p :: ps, c :: cs => if c.toLower = p then stripPrefixCI ps cs else none

/-- Try one keyword at the current position: the keyword must match
case-insensitively and be followed by one or more digits running to the
end of the name (`(\d+)$`); returns the digit run. -/
def tryKeyword (rest : List Char) (kw : List Char) : Option (List Char) :=
  match stripPrefixCI kw rest with
  | some tail =>
    if tail ≠ [] ∧ tail.all Char.isDigit then some tail else none
  | none => none

/-- The alternation with regex backtracking order: first keyword whose
match extends to a digit run reaching the end wins. -/
def tryKeywords (rest : List Char) : Option (List Char) :=
  cdKeywords.findSome? (tryKeyword rest)

/-- Attempt of `CD_PATTERN` at one start position: a separator followed
by a keyword and trailing digits. -/
def matchCdAt (l : List Char) : Option (List Char) :=
  match l with
  | [] => none
  | c :: rest => if isSepChar c then tryKeywords rest else none

/-- JS `String.prototype.match` with a non-global regex: the leftmost
start position with a successful match; returns `(match.index, digits)`. -/
def findCdMatch : List Char → Option (Nat × List Char)
  | [] => none
  | c :: rest =>
    match matchCdAt (c :: rest) with
    | some ds => some (0, ds)
    | none => (findCdMatch rest).map fun p => (p.1 + 1, p.2)

/-- `parseInt(digits, 10)` on a pure digit run. -/
def digitsToNat (ds : List Char) : Nat :=
  ds.foldl (fun n c => n * 10 + (c.toNat - '0'.toNat)) 0

/-- `parseCdInfo` from scanner.ts, on character lists: strip the
extension, find the leftmost `CD_PATTERN` match; on success the base
name is `slice(0, match.index)` and the index is the parsed digit run,
otherwise the stripped name itself with index `0`. -/
def parseCdInfoL (fileName : List Char) : List Char × Nat :=
  let nameWithoutExt := stripExtL fileName
  match findCdMatch nameWithoutExt with
  | some (i, ds) => (nameWithoutExt.take i, digitsToNat ds)
  | none => (nameWithoutExt, 0)

/-- `parseCdInfo` on `String`s (the scanner stores `baseName` and
`cdIndex` as string/number). -/
def parseCdInfoS (fileName : String) : String × Nat :=
  let r := parseCdInfoL fileName.toList
  (String.mk r.1, r.2)

/-- A valid decomposition of an (extension-stripped) name as
`<name><sep><keyword><digits>` with the match anchored at the end:
exactly the strings `CD_PATTERN` accepts. -/
def CdDecomp (stem name : List Char) (sep : Char) (kw ds : List Char) : Prop :=
  stem = name ++ sep :: (kw ++ ds) ∧ isSepChar sep = true ∧
    kw.map Char.toLower ∈ cdKeywords ∧ ds ≠ [] ∧ ds.all Char.isDigit = true

instance (stem name : List Char) (sep : Char) (kw ds : List Char) :
    Decidable (CdDecomp stem name sep kw ds) := by
  unfold CdDecomp; infer_instance

/-! ## Shared data model (src/common/types.ts) -/

/-- `VideoMetadata` from types.ts (ffprobe output).  Numeric fields the
repository compares are modelled as `Nat`. -/
structure VideoMetadata where
  videoCodec : String
  width : Nat
  height : Nat
  duration : Nat
  bitrate : Nat
  frameRate : String
  audioCodec : String
  audioChannels : Nat
deriving Repr, DecidableEq

/-- `VideoFile` from types.ts (also standing in for the renderer's
`VideoFileWithMeta`, which only makes `metadata` optional — modelled
here by `Option`). -/
structure VideoFile where
  path : String
  fileName : String
  dirPath : String
  size : Nat
  nfoPath : Option String
  metadata : Option VideoMetadata
  baseName : String
  cdIndex : Nat
deriving Repr, DecidableEq

instance : Inhabited VideoFile :=
  ⟨{ path := "", fileName := "", dirPath := "", size := 0, nfoPath := none,
     metadata := none, baseName := "", cdIndex := 0 }⟩

/-! ## JS stable sort and Map-grouping idioms -/

/-- Insert `x` into an ascending list, after every strictly smaller
element and before equal ones.  `le` is the boolean preorder induced by
a JS comparator (`le a b` iff `comparator(a,b) <= 0`). -/
def jsInsert (le : α → α → Bool) (x : α) : List α → List α
  | [] => [x]
  | y :: ys =>
    if le y x && !le x y then y :: jsInsert le x ys else x :: y :: ys

/-- Stable sort modelling `Array.prototype.sort` with a consistent
comparator (ES2019 requires sort to be stable; with a consistent
comparator the stable sorted permutation is unique, so any stable sort
implements it). -/
def jsSort (le : α → α → Bool) : List α → List α
  | [] => []
  | x :: xs => jsInsert le x (jsSort le xs)

/-- One step of the `Map`-based grouping idiom used by `groupVideos`
and `dupGroups`: `map.get(k)` then `push` or `set`.  JS `Map` iterates
keys in insertion order and `push` appends. -/
def bucketPush [DecidableEq κ] (m : List (κ × List α)) (k : κ) (x : α) :
    List (κ × List α) :=
  match m with
  | [] => [(k, [x])]
  | (k2, l) :: rest =>
    if k2 = k then (k2, l ++ [x]) :: rest else (k2, l) :: bucketPush rest k x

/-- Group a list by a key, preserving both key insertion order and
element order — the exact behaviour of the `for … map.get/push/set`
loops in the renderer sources. -/
def bucketBy [DecidableEq κ] (key : α → κ) (xs : List α) : List (κ × List α) :=
  xs.foldl (fun m x => bucketPush m (key x) x) []

/-- Association-list value with `[]` default (reading a JS `Map`). -/
def bucketGet [DecidableEq κ] (m : List (κ × List α)) (k : κ) : List α :=
  match m with
  | [] => []
  | (k2, l) :: rest => if k2 = k then l else bucketGet rest k

/-! ## groupVideos (renderer App.tsx) -/

/-- `VideoGroup` from App.tsx. -/
structure VideoGroup where
  key : String
  displayName : String
  dirPath : String
  parts : List VideoFile
  totalSize : Nat
  totalDuration : Nat
  partCount : Nat
  nfoPath : Option String
  metadata : Option VideoMetadata
  primaryPath : String
  baseName : String
deriving Repr, DecidableEq

/-- The composite grouping key `` `${file.dirPath}|||${file.baseName}` ``. -/
def groupKey (f : VideoFile) : String :=
  f.dirPath ++ "|||" ++ f.baseName

/-- Truthiness of the TS `string | null` field `nfoPath` (`p.nfoPath`
as a condition): non-null and non-empty. -/
def nfoTruthy (o : Option String) : Bool :=
  match o with
  | some s => s ≠ ""
  | none => false

/-- The comparator of `parts.sort((a, b) => (a.cdIndex || 0) - (b.cdIndex || 0))`
as a boolean preorder (`comparator(a,b) ≤ 0`). -/
def cdLe (a b : VideoFile) : Bool :=
  a.cdIndex ≤ b.cdIndex

/-- The body of the `for (const [key, parts] of map)` loop of
`groupVideos`: build one `VideoGroup` from a bucket. -/
def mkVideoGroup (kv : String × List VideoFile) : VideoGroup :=
  let parts := jsSort cdLe kv.2
  let primary := parts.headI
  let nfoPath :=
    match parts.find? (fun p => nfoTruthy p.nfoPath) with
    | some p => p.nfoPath
    | none => none
  { key := kv.1
    displayName := primary.baseName
    dirPath := primary.dirPath
    parts := parts
    totalSize := (parts.map (·.size)).sum
    totalDuration :=
      (parts.map (fun p => ((p.metadata.map (·.duration)).getD 0))).sum
    partCount := parts.length
    nfoPath := nfoPath
    metadata := primary.metadata
    primaryPath := primary.path
    baseName := primary.baseName }

/-- `groupVideos` from App.tsx.  `cmp` abstracts
`String.prototype.localeCompare` (locale-dependent, hence a parameter);
the sort keeps `a` before `b` when `localeCompare(a,b) ≤ 0`. -/
def groupVideos (cmp : String → String → Ordering)
    (files : List VideoFile) : List VideoGroup :=
  let groups := (bucketBy groupKey files).map mkVideoGroup
  jsSort (fun a b => cmp a.displayName b.displayName ≠ Ordering.gt) groups

/-! ## Duplicate detection (renderer DuplicateFinder) -/

/-- The `CODEC_RANK` table: higher = newer/better. -/
def codecRankTable : List (String × Int) :=
  [("av1", 5), ("hevc", 4), ("h265", 4), ("vp9", 3), ("h264", 2),
   ("mpeg4", 1), ("mpeg2video", 0), ("mpeg1video", 0)]

/-- `getCodecRank`: missing codec is `-1`, unknown codec is `0`. -/
def getCodecRank (codec : Option String) : Int :=
  match codec with
  | none => -1
  | some c => ((codecRankTable.lookup c.toLower).getD 0)

/-- `getResolution`: `width * height`, zero when metadata is absent. -/
def getResolution (f : VideoFile) : Nat :=
  ((f.metadata.map (·.width)).getD 0) * ((f.metadata.map (·.height)).getD 0)

/-- Comparator of `sortByQuality` as a boolean preorder: resolution
descending, ties by byte size descending (`comparator(a,b) ≤ 0`). -/
def qualityLe (a b : VideoFile) : Bool :=
  getResolution b < getResolution a
    || (getResolution a = getResolution b && b.size ≤ a.size)

/-- `sortByQuality` from DuplicateFinder. -/
def sortByQuality (files : List VideoFile) : List VideoFile :=
  jsSort qualityLe files

/-- `DuplicateGroup` from DuplicateFinder. -/
structure DuplicateGroup where
  baseName : String
  files : List VideoFile
deriving Repr, DecidableEq

/-- Lower-cased base name, the key of the first grouping step
(`file.baseName.toLowerCase()`).  `String.toLower` models the JS
call (identical on ASCII). -/
def lowerBase (f : VideoFile) : String :=
  f.baseName.toLower

/-- The `cdMap` of one base-name group: sub-group by `cdIndex`
(`dupGroups`, step 2). -/
def cdMapOf (baseFiles : List VideoFile) : List (Nat × List VideoFile) :=
  bucketBy (fun f => f.cdIndex) baseFiles

/-- `cdIndices = Array.from(cdMap.keys()).filter(k => k > 0)`. -/
def cdIndicesOf (baseFiles : List VideoFile) : List Nat :=
  ((cdMapOf baseFiles).map Prod.fst).filter (fun i => 0 < i)

/-- `Math.min(...cdIndices)` (only evaluated when `cdIndices` is
non-empty). -/
def lowestCdOf (baseFiles : List VideoFile) : Nat :=
  (cdIndicesOf baseFiles).foldr min (cdIndicesOf baseFiles).headI

/-- `merged = [...lowestCdFiles, ...noCdFiles]`. -/
def mergedOf (baseFiles : List VideoFile) : List VideoFile :=
  bucketGet (cdMapOf baseFiles) (lowestCdOf baseFiles)
    ++ bucketGet (cdMapOf baseFiles) 0

/-- The per-base-name clustering step of `dupGroups`: sub-group by
`cdIndex`, merge the no-cd files into the lowest positive cd group when
both kinds are present, report only groups with more than one member.
The JS `let` bindings (`cdMap`, `cdIndices`, `lowestCd`, `merged`) are
the named definitions above; the `for`/`push` loops are the
`filterMap`s. -/
def clustersOfBase (baseFiles : List VideoFile) : List DuplicateGroup :=
  let base := (baseFiles.headI).baseName
  if !(cdIndicesOf baseFiles).isEmpty
      && !(bucketGet (cdMapOf baseFiles) 0).isEmpty then
    (if 1 < (mergedOf baseFiles).length then
      [{ baseName := base, files := sortByQuality (mergedOf baseFiles) }]
    else [])
    ++ ((cdIndicesOf baseFiles).filterMap fun idx =>
        if idx = lowestCdOf baseFiles then none
        else if 1 < (bucketGet (cdMapOf baseFiles) idx).length then
          some { baseName := base ++ "-cd" ++ toString idx,
                 files := sortByQuality (bucketGet (cdMapOf baseFiles) idx) }
        else none)
  else
    (cdMapOf baseFiles).filterMap fun kv =>
      if 1 < kv.2.length then
        some { baseName :=
                 base ++ (if 0 < kv.1 then "-cd" ++ toString kv.1 else ""),
               files := sortByQuality kv.2 }
      else none

/-- `dupGroups` from DuplicateFinder: group by lower-cased base name,
cluster each base group, then sort the report by name (`cmp` abstracts
`localeCompare` as in `groupVideos`). -/
def dupGroups (cmp : String → String → Ordering)
    (files : List VideoFile) : List DuplicateGroup :=
  let baseMap := bucketBy lowerBase files
  let groups := (baseMap.map (fun kv => clustersOfBase kv.2)).flatten
  jsSort (fun a b => cmp a.baseName b.baseName ≠ Ordering.gt) groups

/-! ## Smart select (renderer DuplicateFinder `handleSmartSelect`) -/

inductive SelectStrategy where
  | lowres
  | oldcodec
  | smaller
deriving Repr, DecidableEq

/-- Does `curr` replace the current best under the given strategy?
Read directly off the `if`/`else if` chain in `handleSmartSelect`. -/
def replacesBest (strategy : SelectStrategy) (curr best : VideoFile) : Bool :=
  match strategy with
  | .lowres =>
    (getResolution best < getResolution curr)
      || (getResolution curr = getResolution best && best.size < curr.size)
  | .oldcodec =>
    (getCodecRank (best.metadata.map (·.videoCodec))
        < getCodecRank (curr.metadata.map (·.videoCodec)))
      || (getCodecRank (curr.metadata.map (·.videoCodec))
            = getCodecRank (best.metadata.map (·.videoCodec))
          && getResolution best < getResolution curr)
  | .smaller => best.size < curr.size

/-- The `for (let i = 1; i < files.length; i++)` scan computing the
index of the file to keep. -/
def pickBestIdx (strategy : SelectStrategy) (files : List VideoFile) : Nat :=
  (List.range' 1 (files.length - 1)).foldl
    (fun best i =>
      if replacesBest strategy (files.getD i default) (files.getD best default)
      then i else best)
    0

/-- JS `Set.add` on the accumulated selection. -/
def setAdd (s : List String) (x : String) : List String :=
  if x ∈ s then s else s ++ [x]

/-- `handleSmartSelect`: for each duplicate group select every file
except the best one; the result is the set of selected paths. -/
def smartSelect (strategy : SelectStrategy) (groups : List DuplicateGroup) :
    List String :=
  groups.foldl
    (fun sel g =>
      let bestIdx := pickBestIdx strategy g.files
      (List.range g.files.length).foldl
        (fun sel2 i =>
          if i ≠ bestIdx then setAdd sel2 ((g.files.getD i default).path)
          else sel2)
        sel)
    []

/-! ## The incremental scanner (scanner.ts)

The filesystem is an association list from directory path to a
`DirNode`.  A path absent from the map models `stat` throwing (the
directory is unreadable or missing); `entries = none` models a
successful `stat` followed by `readdir` throwing.  Both are caught by
the `try/catch` wrapping `scanDirectory`'s body.  The `onFound`
callback is modelled by the `emitted` list of the scan state; the
`DIR_PARALLEL`-batched `Promise.allSettled` recursion over
subdirectories is sequentialized (each child settles, rejections
cannot escape `allSettled`, and sibling scans touch disjoint cache
keys), and recursion over the unbounded directory graph takes explicit
fuel. -/

/-- One `readdir` entry (`withFileTypes` Dirent). -/
structure FsEntry where
  name : String
  isDir : Bool
deriving Repr, DecidableEq

/-- A directory as the filesystem presents it: `stat` yields `mtimeMs`;
`entries = none` models `readdir` throwing. -/
structure DirNode where
  mtimeMs : Nat
  entries : Option (List FsEntry)
deriving Repr, DecidableEq

/-- The filesystem: `none` models `stat` throwing for that path. -/
abbrev Fs : Type := List (String × DirNode)

/-- Look a directory up in the filesystem (`stat` + `readdir` oracle). -/
def fsGet (fs : Fs) (dir : String) : Option DirNode :=
  match fs with
  | [] => none
  | (p, d) :: rest => if p = dir then some d else fsGet rest dir

/-- `DirCacheEntry` from scanner.ts. -/
structure DirCacheEntry where
  mtime : Nat
  videoFiles : List VideoFile
  subdirs : List String
deriving Repr, DecidableEq

/-- `DirCache = Map<string, DirCacheEntry>`; association list with
`Map.get`/`Map.set` semantics. -/
abbrev DirCache : Type := List (String × DirCacheEntry)

def cacheGet (c : DirCache) (dir : String) : Option DirCacheEntry :=
  match c with
  | [] => none
  | (p, e) :: rest => if p = dir then some e else cacheGet rest dir

def cacheSet (c : DirCache) (dir : String) (e : DirCacheEntry) : DirCache :=
  match c with
  | [] => [(dir, e)]
  | (p, e2) :: rest =>
    if p = dir then (p, e) :: rest else (p, e2) :: cacheSet rest dir e

/-- The `ScanTimings` accumulator from scanner.ts (`startTime` is wall
clock, not modelled beyond being carried through). -/
structure ScanTimings where
  startTime : Nat
  readdirCount : Nat
  cacheHits : Nat
  videoCount : Nat
  dirCount : Nat
deriving Repr, DecidableEq

/-- `ScanStats` from types.ts. -/
structure ScanStats where
  elapsed : Nat
  readdirCount : Nat
  cacheHits : Nat
  videoCount : Nat
  dirCount : Nat
deriving Repr, DecidableEq

/-- Full scan state: timings, the directory cache, and the list of
`onFound` invocations so far, in order. -/
structure ScanState where
  timings : ScanTimings
  cache : DirCache
  emitted : List VideoFile
deriving Repr, DecidableEq

/-- `VIDEO_EXTENSIONS` from types.ts. -/
def videoExtensions : List String :=
  [".mp4", ".mkv", ".avi", ".wmv", ".mov", ".webm", ".flv", ".f4v",
   ".mpg", ".mpeg", ".m4v", ".ts", ".mts", ".m2ts", ".vob", ".3gp",
   ".ogv", ".rmvb", ".rm"]

/-- `path.join(dir, name)` for a directory plus a plain entry name. -/
def pathJoin (dir name : String) : String :=
  dir ++ "/" ++ name

/-- Node `path.extname` on a `String` (see `extnameL`). -/
def extnameS (s : String) : String :=
  String.mk (extnameL s.toList)

/-- `VIDEO_EXTENSIONS.includes(extname(name).toLowerCase())`. -/
def isVideoName (name : String) : Bool :=
  videoExtensions.contains (extnameS name).toLower

/-- The lower-cased non-directory entry names of a listing
(`fileNamesInDir` in scanner.ts). -/
def fileNamesLower (entries : List FsEntry) : List String :=
  (entries.filter (fun e => !e.isDir)).map (fun e => e.name.toLower)

/-- `findNfoFileFromCache` from scanner.ts: `<baseName>.nfo`, then
`<videoName>.nfo` if different, then `movie.nfo`, all against the
already-fetched lower-cased listing. -/
def findNfoFileFromCache (dir baseName videoFileName : String)
    (names : List String) : Option String :=
  let videoName := String.mk (stripExtL videoFileName.toList)
  if names.contains (baseName ++ ".nfo").toLower then
    some (pathJoin dir (baseName ++ ".nfo"))
  else if videoName ≠ baseName ∧
      names.contains (videoName ++ ".nfo").toLower then
    some (pathJoin dir (videoName ++ ".nfo"))
  else if names.contains "movie.nfo" then
    some (pathJoin dir "movie.nfo")
  else none

/-- The `VideoFile` record the cache-based scanner constructs for a
video entry of a listing (size is `0`; sizes load later through
`getFileSizes`). -/
def mkVideoFile (dir : String) (entries : List FsEntry) (e : FsEntry) :
    VideoFile :=
  let parsed := parseCdInfoS e.name
  { path := pathJoin dir e.name
    fileName := e.name
    dirPath := dir
    size := 0
    nfoPath := findNfoFileFromCache dir parsed.1 e.name (fileNamesLower entries)
    metadata := none
    baseName := parsed.1
    cdIndex := parsed.2 }

/-- The video files of one listing, in entry order.  In scanner.ts the
single `for` loop both collects this list and emits each element to
`onFound` as it is built; the loop is equivalent to this filter/map and
the emission order is exactly this list. -/
def filesOfListing (dir : String) (entries : List FsEntry) : List VideoFile :=
  (entries.filter (fun e => !e.isDir && isVideoName e.name)).map
    (mkVideoFile dir entries)

/-- The subdirectory full paths of one listing, in entry order. -/
def subdirsOfListing (dir : String) (entries : List FsEntry) : List String :=
  (entries.filter (fun e => e.isDir)).map (fun e => pathJoin dir e.name)

/-- `scanDirectory` from scanner.ts (the mtime-cached version).  The
structure mirrors the source exactly: stat, cache probe, hit replay or
miss listing, cache store, then recursion into subdirectories; the
trailing `catch` is the `none` branches.  `missPath` is the cache-miss
tail of the function body, which the source reaches by falling through
the hit test. -/
def scanDirectory (fs : Fs) : Nat → String → ScanState → ScanState
  | 0, _, s => s
  | fuel + 1, dir, s =>
    match fsGet fs dir with
    | none => s
    | some node =>
      let missPath : ScanState :=
        let t := s.timings
        let s1 : ScanState :=
          { s with timings :=
              { t with readdirCount := t.readdirCount + 1 } }
        match node.entries with
        | none => s1
        | some entries =>
          let videoFiles := filesOfListing dir entries
          let subdirs := subdirsOfListing dir entries
          let s2 : ScanState :=
            { s1 with
              timings :=
                { s1.timings with
                  videoCount := s1.timings.videoCount + videoFiles.length }
              cache := cacheSet s1.cache dir
                { mtime := node.mtimeMs, videoFiles := videoFiles,
                  subdirs := subdirs }
              emitted := s1.emitted ++ videoFiles }
          if subdirs.isEmpty then s2
          else
            let s3 :=
              { s2 with
                timings :=
                  { s2.timings with
                    dirCount := s2.timings.dirCount + subdirs.length } }
            subdirs.foldl (fun st d => scanDirectory fs fuel d st) s3
      match cacheGet s.cache dir with
      | some cached =>
        if cached.mtime = node.mtimeMs then
          let t := s.timings
          let s1 : ScanState :=
            { s with
              timings :=
                { t with
                  cacheHits := t.cacheHits + 1
                  videoCount := t.videoCount + cached.videoFiles.length }
              emitted := s.emitted ++ cached.videoFiles }
          if cached.subdirs.isEmpty then s1
          else
            let s2 :=
              { s1 with
                timings :=
                  { s1.timings with
                    dirCount := s1.timings.dirCount + cached.subdirs.length } }
            cached.subdirs.foldl (fun st d => scanDirectory fs fuel d st) s2
        else missPath
      | none => missPath

/-- Sequential scan of a list of directories (the sequentialized
`Promise.allSettled` batches). -/
def scanList (fs : Fs) (fuel : Nat) (dirs : List String) (s : ScanState) :
    ScanState :=
  dirs.foldl (fun st d => scanDirectory fs fuel d st) s

/-- The platform environment `resolveUncPath` consults: whether we are
on win32, and the drive map that `net use` produced (`buildDriveMap`
queries an external OS command; its result is the model parameter). -/
structure SysEnv where
  isWin32 : Bool
  driveMap : List (String × String)
deriving Repr

/-- Test for `/^[A-Z]:$/` on the two-character slice. -/
def isDriveSpec (drive : String) : Bool :=
  match drive.toList with
  | [c, colon] => ('A' ≤ c ∧ c ≤ 'Z') ∧ colon = ':'
  | _ => false

/-- `resolveUncPath` from scanner.ts: replace a mapped drive-letter
prefix with its UNC path, otherwise return the input unchanged. -/
def resolveUncPath (env : SysEnv) (filePath : String) : String :=
  if !env.isWin32 then filePath
  else
    let drive := String.mk ((filePath.toList.take 2).map Char.toUpper)
    if !isDriveSpec drive then filePath
    else
      match env.driveMap.lookup drive with
      | none => filePath
      | some unc => unc ++ String.mk (filePath.toList.drop 2)

/-- `scanDirectories` from scanner.ts: resolve the roots, run the scan
over all of them with fresh timings, and return the statistics (wall
clock is not modelled, so `startTime`/`elapsed` are `0`). -/
def scanDirectories (env : SysEnv) (fs : Fs) (fuel : Nat)
    (dirs : List String) (cache : DirCache) : ScanStats × ScanState :=
  let resolved := dirs.map (resolveUncPath env)
  let timings : ScanTimings :=
    { startTime := 0, readdirCount := 0, cacheHits := 0, videoCount := 0,
      dirCount := 0 }
  let s := scanList fs fuel resolved
    { timings := timings, cache := cache, emitted := [] }
  ({ elapsed := 0
     readdirCount := s.timings.readdirCount
     cacheHits := s.timings.cacheHits
     videoCount := s.timings.videoCount
     dirCount := s.timings.dirCount }, s)

/-- `getFileSizes` from scanner.ts: `stat` each path in batches of 40
via `Promise.allSettled`, keeping fulfilled results in order.
`statSize` is the per-file `stat(...).size` oracle (`none` = throws). -/
def getFileSizes (statSize : String → Option Nat) :
    List String → List (String × Nat)
  | [] => []
  | p0 :: rest =>
    let batch := (p0 :: rest).take 40
    let settled := batch.map fun p => (statSize p).map fun sz => (p, sz)
    settled.reduceOption ++ getFileSizes statSize ((p0 :: rest).drop 40)
termination_by paths => paths.length
decreasing_by
  simp only [List.length_drop, List.length_cons]
  omega

/-! ## saveNfo and its IPC handler (nfo.ts, main/index.ts)

The write path needs a filesystem with fallible `copyFile` and
`writeFile`.  `NfoWorld.files` maps path to contents; `copyFails` and
`writeFails` are failure oracles modelling I/O errors beyond a missing
copy source (permission, disk full, …), each carrying the message
`String(err)` would produce. -/

/-- Render of one `JsVal` as element content by the `XMLBuilder`
(attributes from `@_` keys, text from `#text`, arrays as repeated
sibling tags).  Whitespace/indentation of the real builder is not
reproduced; claims about the writer concern backup and error flow, not
byte-level text. -/
def renderXml (tag : String) : JsVal → String
  | .str s => "<" ++ tag ++ ">" ++ s ++ "</" ++ tag ++ ">"
  | .num n => "<" ++ tag ++ ">" ++ toString n ++ "</" ++ tag ++ ">"
  | .bool b =>
    "<" ++ tag ++ ">" ++ (if b then "true" else "false") ++ "</" ++ tag ++ ">"
  | .arr elems =>
    String.join (elems.attach.map fun x => renderXml tag x.1)
  | .obj fields =>
    let attrs := String.join ((fields.attach.filter
        (fun kv => kv.1.1.startsWith "@_")).map fun kv =>
      " " ++ kv.1.1.drop 2 ++ "=" ++ jsString kv.1.2)
    let body := String.join ((fields.attach.filter
        (fun kv => !kv.1.1.startsWith "@_")).map fun kv =>
      if kv.1.1 = "#text" then jsString kv.1.2 else renderXml kv.1.1 kv.1.2)
    "<" ++ tag ++ attrs ++ ">" ++ body ++ "</" ++ tag ++ ">"
termination_by v => sizeOf v
decreasing_by
  · have h := x.2
    have hlt := List.sizeOf_lt_of_mem h
    simp only [JsVal.arr.sizeOf_spec]
    omega
  · have h := kv.2
    have hlt := List.sizeOf_lt_of_mem h
    have h2 : sizeOf kv.1.2 < sizeOf kv.1 := by
      obtain ⟨a, b⟩ := kv.1
      simp only [Prod.mk.sizeOf_spec]
      omega
    simp only [JsVal.obj.sizeOf_spec]
    omega

/-- The XML text `saveNfo` writes: declaration plus serialized movie
element. -/
def buildNfoXml (data : NfoData) : String :=
  "<?xml version=\x221.0\x22 encoding=\x22UTF-8\x22 standalone=\x22yes\x22?>\n"
    ++ renderXml "movie" (JsVal.obj (denormalizeNfoData data))

/-- The filesystem world of the NFO writer. -/
structure NfoWorld where
  files : List (String × String)
  copyFails : String → Bool
  writeFails : String → Bool

/-- Contents at a path in a path→contents map. -/
def fileGet (files : List (String × String)) (p : String) : Option String :=
  match files with
  | [] => none
  | (p2, c) :: rest => if p2 = p then some c else fileGet rest p

/-- Contents at a path. -/
def worldGet (w : NfoWorld) (p : String) : Option String :=
  fileGet w.files p

/-- Store contents at a path (overwrite or create). -/
def filesSet (files : List (String × String)) (p c : String) :
    List (String × String) :=
  match files with
  | [] => [(p, c)]
  | (p2, c2) :: rest =>
    if p2 = p then (p2, c) :: rest else (p2, c2) :: filesSet rest p c

/-- `fs.copyFile(src, dst)`: fails when the source is absent or when the
failure oracle fires; otherwise duplicates the contents. -/
def copyFile (w : NfoWorld) (src dst : String) : Option NfoWorld :=
  match worldGet w src with
  | none => none
  | some content =>
    if w.copyFails src then none
    else some { w with files := filesSet w.files dst content }

/-- `fs.writeFile(p, content)`: fails when the oracle fires (leaving the
file untouched), otherwise replaces the contents. -/
def writeFile (w : NfoWorld) (p content : String) : Option NfoWorld :=
  if w.writeFails p then none
  else some { w with files := filesSet w.files p content }

/-- `saveNfo` from nfo.ts: try to back the file up to `<path>.bak`,
swallow any backup failure, then build the XML and write it.  Returns
the final world and the error message of a failed write, if any. -/
def saveNfo (w : NfoWorld) (nfoPath : String) (data : NfoData) :
    NfoWorld × Option String :=
  let w1 :=
    match copyFile w nfoPath (nfoPath ++ ".bak") with
    | some w2 => w2
    | none => w
  match writeFile w1 nfoPath (buildNfoXml data) with
  | some w2 => (w2, none)
  | none => (w1, some "EWRITE")

/-- The result record the `save-nfo` IPC handler returns. -/
structure SaveResult where
  success : Bool
  error : Option String
deriving Repr, DecidableEq

/-- The `save-nfo` handler in main/index.ts: `try { await saveNfo; return
{success:true} } catch (err) { return {success:false, error:String(err)} }`. -/
def saveNfoHandler (w : NfoWorld) (nfoPath : String) (data : NfoData) :
    NfoWorld × SaveResult :=
  match saveNfo w nfoPath data with
  | (w2, none) => (w2, { success := true, error := none })
  | (w2, some e) => (w2, { success := false, error := some ("Error: " ++ e) })

/-! ## Specification-side predicates for the scanner (C3, C8, C10) -/

/-- The per-scan emission specification: the video files below a
directory, fuel-bounded, in the (sequentialized) order the scanner
reports them — a pure function of the filesystem alone. -/
def emitSpec (fs : Fs) : Nat → String → List VideoFile
  | 0, _ => []
  | fuel + 1, dir =>
    match fsGet fs dir with
    | none => []
    | some node =>
      match node.entries with
      | none => []
      | some entries =>
        filesOfListing dir entries ++
          ((subdirsOfListing dir entries).map (fun sub =>
            emitSpec fs fuel sub)).flatten

/-- A cache is accurate for `fs` when every entry reproduces exactly
what a fresh listing of its directory would produce: matching
timestamp, and the stored files and subdirectories computed from the
current listing.  Every entry the scanner itself stores has this shape,
so any cache state left behind by scans of an unmodified filesystem is
accurate; the empty cache is trivially accurate. -/
def accurate (fs : Fs) (c : DirCache) : Prop :=
  ∀ dir e, cacheGet c dir = some e →
    ∃ node entries, fsGet fs dir = some node ∧
      node.entries = some entries ∧ e.mtime = node.mtimeMs ∧
      e.videoFiles = filesOfListing dir entries ∧
      e.subdirs = subdirsOfListing dir entries

/-- No directory that can be stat-ed fails its listing (`readdir` does
not throw); stat failures (`fsGet = none`) are still allowed. -/
def readdirOk (fs : Fs) : Prop :=
  ∀ p node, fsGet fs p = some node → node.entries ≠ none

/-- The cache has an entry for every directory a fuel-bounded scan
reaches. -/
def covered (fs : Fs) : Nat → String → DirCache → Prop
  | 0, _, _ => True
  | fuel + 1, dir, c =>
    ∀ node, fsGet fs dir = some node →
      (∃ e, cacheGet c dir = some e) ∧
      ∀ entries, node.entries = some entries →
        ∀ sub ∈ subdirsOfListing dir entries, covered fs fuel sub c

/-- Every cached video file record carries size `0` (what the scanner
itself stores). -/
def cacheZero (c : DirCache) : Prop :=
  ∀ p e, cacheGet c p = some e → ∀ f ∈ e.videoFiles, f.size = 0

/-! ## Specification-side predicates for duplicate clustering (C5)

These state, independently of the clustering code, when two files must
land in one reported cluster. -/

/-- The list contains both part-indexed (`> 0`) and non-indexed (`= 0`)
files. -/
def mixedIn (l : List VideoFile) : Prop :=
  (∃ h ∈ l, 0 < h.cdIndex) ∧ (∃ h ∈ l, h.cdIndex = 0)

/-- `i` is the lowest positive part index occurring in the list. -/
def isLowestPosIn (l : List VideoFile) (i : Nat) : Prop :=
  0 < i ∧ (∃ h ∈ l, h.cdIndex = i) ∧
    ∀ h ∈ l, 0 < h.cdIndex → i ≤ h.cdIndex

/-- The base-name group of `b` (case-insensitive) within `files` has
both part-indexed and non-indexed files. -/
def mixedBase (files : List VideoFile) (b : String) : Prop :=
  mixedIn (files.filter (fun h => lowerBase h = b))

/-- `i` is the lowest positive part index in the base-name group of `b`. -/
def isLowestPos (files : List VideoFile) (b : String) (i : Nat) : Prop :=
  isLowestPosIn (files.filter (fun h => lowerBase h = b)) i

/-- When the claimed clustering rule puts `f` and `g` into the same
candidate cluster: equal case-insensitive base names, and either equal
part indices, or (in a mixed base-name group) one of them non-indexed
and the other at the lowest positive index present. -/
def sameCluster (files : List VideoFile) (f g : VideoFile) : Prop :=
  lowerBase f = lowerBase g ∧
    (f.cdIndex = g.cdIndex ∨
      (mixedBase files (lowerBase f) ∧
        ((f.cdIndex = 0 ∧ isLowestPos files (lowerBase f) g.cdIndex) ∨
          (g.cdIndex = 0 ∧ isLowestPos files (lowerBase f) f.cdIndex))))

/-! # Theorems

Helper lemmas first, then one theorem per claim (with witnesses and
counterexamples where applicable). -/

/-! ## Association list helpers -/

theorem jsGet_append_single_ne (m : List (String × JsVal)) (k2 : String)
    (v : JsVal) (k : String) (h : k2 ≠ k) :
    jsGet (m ++ [(k2, v)]) k = jsGet m k := by
  induction m with
  | nil => simp [jsGet, h]
  | cons hd tl ih =>
    obtain ⟨hk, hv⟩ := hd
    simp only [List.cons_append, jsGet]
    split
    · rfl
    · exact ih

theorem jsGet_extend {c : Prop} [Decidable c] {m : List (String × JsVal)}
    {k2 : String} {v : JsVal} {k : String} (h : k2 ≠ k) :
    jsGet (if c then m ++ [(k2, v)] else m) k = jsGet m k := by
  split
  · exact jsGet_append_single_ne m k2 v k h
  · rfl

set_option maxHeartbeats 1000000 in
/-- Serialization never emits a top-level tag outside `emittedKeys`:
reading any other key from `denormalizeNfoData`'s output yields
`undefined`. -/
theorem denorm_unknown_key_none (data : NfoData) (k : String)
    (hk : k ∉ emittedKeys) : jsGet (denormalizeNfoData data) k = none := by
  simp only [emittedKeys, List.mem_cons, List.not_mem_nil, or_false,
    not_or] at hk
  obtain ⟨h1, h2, h3, h4, h5, h6, h7, h8, h9, h10, h11, h12, h13, h14, h15,
    h16, h17, h18, h19, h20, h21⟩ := hk
  simp only [denormalizeNfoData]
  rw [jsGet_extend (Ne.symm h21), jsGet_extend (Ne.symm h20),
    jsGet_extend (Ne.symm h19), jsGet_extend (Ne.symm h18),
    jsGet_extend (Ne.symm h17), jsGet_extend (Ne.symm h16),
    jsGet_extend (Ne.symm h15), jsGet_extend (Ne.symm h14),
    jsGet_extend (Ne.symm h13), jsGet_extend (Ne.symm h12),
    jsGet_extend (Ne.symm h11), jsGet_extend (Ne.symm h10),
    jsGet_extend (Ne.symm h9), jsGet_extend (Ne.symm h8),
    jsGet_extend (Ne.symm h7), jsGet_extend (Ne.symm h6),
    jsGet_extend (Ne.symm h5), jsGet_extend (Ne.symm h4),
    jsGet_extend (Ne.symm h3), jsGet_extend (Ne.symm h2),
    jsGet_extend (Ne.symm h1)]
  rfl

/-! ## Claim C1 -/

/-- C1 (status: code_bug).  The claim — and the doc comment on
`NfoData`'s index signature in `src/common/types.ts` ("Raw fields we
don't explicitly handle — preserved on save") — says every top-level
tag not explicitly mapped is retained by parse and re-emitted by
serialize.  The code drops them: `normalizeNfoData` builds a record
from the explicitly mapped fields only, and `denormalizeNfoData` only
ever emits keys in `emittedKeys`, so `parse(serialize(record))` loses
every unrecognized field.  Conjunct 1 is the general statement;
conjunct 2 evaluates the round trip at a failing input with the
unrecognized top-level tag `customfield`. -/
theorem c1_unrecognized_fields_not_retained :
    (∀ (data : NfoData) (k : String), k ∉ emittedKeys →
      jsGet (denormalizeNfoData data) k = none) ∧
    (jsGet [("title", JsVal.str "T"), ("customfield", JsVal.str "X")]
        "customfield" = some (JsVal.str "X") ∧
      jsGet (denormalizeNfoData (normalizeNfoData
          [("title", JsVal.str "T"), ("customfield", JsVal.str "X")]))
        "customfield" = none ∧
      normalizeNfoData [("title", JsVal.str "T"), ("customfield", JsVal.str "X")]
        = { createEmptyNfo with title := "T" }) := by
  refine ⟨denorm_unknown_key_none, rfl, ?_, by decide⟩
  exact denorm_unknown_key_none _ "customfield" (by decide)

/-- Witness for C1: the general conjunct applied at a concrete record
and the concrete unmapped key `fanart2`, hypothesis discharged by
evaluation. -/
theorem c1_witness :
    ("fanart2" ∉ emittedKeys) ∧
      jsGet (denormalizeNfoData createEmptyNfo) "fanart2" = none :=
  ⟨by decide,
    c1_unrecognized_fields_not_retained.1 createEmptyNfo "fanart2" (by decide)⟩

/-! ## Claim C9 -/

/-- C9 (status: confirmed).  For every well-formed XML input whose
parsed document lacks a top-level `movie` element, `readNfo` resolves
successfully (it is total here) with the all-default record — exactly
`createEmptyNfo`. -/
theorem c9_missing_movie_yields_empty (parsed : List (String × JsVal))
    (h : jsGet parsed "movie" = none) :
    readNfoParsed parsed = createEmptyNfo := by
  simp only [readNfoParsed, h]
  decide

/-- Witness for C9 at a concrete movie-less document. -/
theorem c9_witness :
    jsGet [("tvshow", JsVal.obj [("title", JsVal.str "S")])] "movie" = none ∧
      readNfoParsed [("tvshow", JsVal.obj [("title", JsVal.str "S")])]
        = createEmptyNfo :=
  ⟨rfl, c9_missing_movie_yields_empty _ rfl⟩

/-! ## Claim C7 helpers -/

theorem fileGet_filesSet_same (files : List (String × String)) (p c : String) :
    fileGet (filesSet files p c) p = some c := by
  induction files with
  | nil => simp [filesSet, fileGet]
  | cons hd tl ih =>
    obtain ⟨p2, c2⟩ := hd
    simp only [filesSet]
    split
    · next hp => simp [fileGet, hp]
    · next hp => simp [fileGet, hp, ih]

theorem fileGet_filesSet_ne (files : List (String × String)) (p c q : String)
    (h : p ≠ q) : fileGet (filesSet files p c) q = fileGet files q := by
  induction files with
  | nil => simp [filesSet, fileGet, h]
  | cons hd tl ih =>
    obtain ⟨p2, c2⟩ := hd
    simp only [filesSet]
    split
    · next hp => subst hp; simp [fileGet, h]
    · next hp => simp only [fileGet]; split <;> simp [ih]

theorem self_ne_append_bak (p : String) : p ≠ p ++ ".bak" := by
  intro h
  have hlen := congrArg String.length h
  rw [String.length_append] at hlen
  have h4 : ".bak".length = 4 := rfl
  omega

theorem copyFile_some_fields (w : NfoWorld) (src dst : String)
    (w2 : NfoWorld) (h : copyFile w src dst = some w2) :
    w2.writeFails = w.writeFails ∧ w2.copyFails = w.copyFails ∧
      ∃ content, w2.files = filesSet w.files dst content := by
  simp only [copyFile] at h
  split at h
  · exact absurd h (by simp)
  · split at h
    · exact absurd h (by simp)
    · cases h
      exact ⟨rfl, rfl, _, rfl⟩

/-- The intermediate world after the backup attempt keeps the oracles
and the contents at every path other than `<path>.bak`. -/
theorem saveNfo_backup_world (w : NfoWorld) (p : String) :
    ((match copyFile w p (p ++ ".bak") with
      | some w2 => w2
      | none => w) : NfoWorld).writeFails = w.writeFails ∧
    ∀ q, q ≠ p ++ ".bak" →
      fileGet ((match copyFile w p (p ++ ".bak") with
        | some w2 => w2
        | none => w) : NfoWorld).files q = fileGet w.files q := by
  cases hc : copyFile w p (p ++ ".bak") with
  | none => exact ⟨rfl, fun q _ => rfl⟩
  | some w2 =>
    obtain ⟨hw, _, content, hf⟩ := copyFile_some_fields w p _ w2 hc
    refine ⟨hw, fun q hq => ?_⟩
    rw [hf]
    exact fileGet_filesSet_ne _ _ _ _ (Ne.symm hq)

/-! ## Claim C7 -/

/-- C7 (status: confirmed).  `saveNfo` always attempts to copy the
existing sidecar to `<path>.bak` before writing (conjunct 1: whenever
the source exists and the copy does not fail, the backup holds the old
contents in the final world, regardless of how the write went); a
failed backup copy is swallowed and the save proceeds (conjunct 2: with
the source absent or the copy failing, a working write yields a success
result and the new contents); a failed final write is surfaced as an
explicit failure result with a reason string, the target file keeping
its previous contents (conjunct 3). -/
theorem c7_save_backup_and_errors :
    (∀ (w : NfoWorld) (p : String) (data : NfoData) (old : String),
      worldGet w p = some old → w.copyFails p = false →
      worldGet (saveNfo w p data).1 (p ++ ".bak") = some old) ∧
    (∀ (w : NfoWorld) (p : String) (data : NfoData),
      (worldGet w p = none ∨ w.copyFails p = true) →
      w.writeFails p = false →
      (saveNfoHandler w p data).2 = ⟨true, none⟩ ∧
        worldGet (saveNfoHandler w p data).1 p = some (buildNfoXml data)) ∧
    (∀ (w : NfoWorld) (p : String) (data : NfoData),
      w.writeFails p = true →
      (saveNfoHandler w p data).2 = ⟨false, some ("Error: " ++ "EWRITE")⟩ ∧
        worldGet (saveNfoHandler w p data).1 p = worldGet w p) := by
  refine ⟨?_, ?_, ?_⟩
  · intro w p data old hold hcopy
    have hc : copyFile w p (p ++ ".bak")
        = some { w with files := filesSet w.files (p ++ ".bak") old } := by
      simp only [copyFile, worldGet] at hold ⊢
      rw [hold]
      simp [hcopy]
    simp only [saveNfo, hc, writeFile]
    cases hwf : w.writeFails p with
    | false =>
      simp only [hwf, Bool.false_eq_true, if_false, worldGet]
      rw [fileGet_filesSet_ne _ _ _ _ (self_ne_append_bak p)]
      rw [fileGet_filesSet_same]
    | true =>
      simp only [hwf, if_true, worldGet]
      rw [fileGet_filesSet_same]
  · intro w p data hfail hwrite
    have hc : copyFile w p (p ++ ".bak") = none := by
      simp only [copyFile, worldGet] at hfail ⊢
      rcases hfail with hf | hf
      · rw [hf]
      · split
        · rfl
        · simp [hf]
    have hwf : writeFile w p (buildNfoXml data)
        = some { w with files := filesSet w.files p (buildNfoXml data) } := by
      simp [writeFile, hwrite]
    simp only [saveNfoHandler, saveNfo, hc, hwf]
    refine ⟨by trivial, ?_⟩
    simp only [worldGet]
    rw [fileGet_filesSet_same]
  · intro w p data hwrite
    obtain ⟨hw1write, hw1files⟩ := saveNfo_backup_world w p
    have hwf : writeFile (match copyFile w p (p ++ ".bak") with
        | some w2 => w2
        | none => w) p (buildNfoXml data) = none := by
      simp [writeFile, hw1write, hwrite]
    simp only [saveNfoHandler, saveNfo, hwf, worldGet]
    refine ⟨by trivial, hw1files p (self_ne_append_bak p)⟩

/-- Witness for C7: a concrete world with an existing sidecar — the
backup lands next to it (conjunct 1 of the theorem); and with a failing
write oracle the handler reports the failure (conjunct 3). -/
theorem c7_witness :
    worldGet (saveNfo
        ⟨[("/m/movie.nfo", "old")], fun _ => false, fun _ => false⟩
        "/m/movie.nfo" createEmptyNfo).1 ("/m/movie.nfo" ++ ".bak")
      = some "old" ∧
    (saveNfoHandler
        ⟨[("/m/movie.nfo", "old")], fun _ => false, fun _ => true⟩
        "/m/movie.nfo" createEmptyNfo).2
      = ⟨false, some ("Error: " ++ "EWRITE")⟩ :=
  ⟨c7_save_backup_and_errors.1 _ "/m/movie.nfo" createEmptyNfo "old" rfl rfl,
    (c7_save_backup_and_errors.2.2 _ "/m/movie.nfo" createEmptyNfo rfl).1⟩

/-! ## Claim C2 helpers: the `CD_PATTERN` match -/

theorem isSepChar_cases (c : Char) (h : isSepChar c = true) :
    c = '-' ∨ c = '_' ∨ c = ' ' ∨ c = '.' := by
  simp only [isSepChar, Bool.or_eq_true, decide_eq_true_eq] at h
  tauto

theorem sep_toLower_not_mem_kw (c : Char) (h : isSepChar c = true)
    (p : List Char) (hp : p ∈ cdKeywords) : c.toLower ∉ p := by
  simp only [cdKeywords, List.mem_cons, List.not_mem_nil, or_false] at hp
  rcases isSepChar_cases c h with rfl | rfl | rfl | rfl <;>
    rcases hp with rfl | rfl | rfl | rfl <;> decide

theorem sep_not_digit (c : Char) (h : isSepChar c = true) :
    c.isDigit = false := by
  rcases isSepChar_cases c h with rfl | rfl | rfl | rfl <;> decide

theorem stripPrefixCI_sound (p : List Char) :
    ∀ l t, stripPrefixCI p l = some t →
      ∃ w, l = w ++ t ∧ w.map Char.toLower = p := by
  induction p with
  | nil =>
    intro l t h
    simp only [stripPrefixCI, Option.some.injEq] at h
    exact ⟨[], by simp [h]⟩
  | cons pc ps ih =>
    intro l t h
    cases l with
    | nil => simp [stripPrefixCI] at h
    | cons c cs =>
      simp only [stripPrefixCI] at h
      split at h
      · next hcl =>
        obtain ⟨w, hw, hmap⟩ := ih cs t h
        exact ⟨c :: w, by simp [hw], by simp [hmap, hcl]⟩
      · exact absurd h (by simp)

theorem stripPrefixCI_complete (w : List Char) :
    ∀ t, stripPrefixCI (w.map Char.toLower) (w ++ t) = some t := by
  induction w with
  | nil => intro t; rfl
  | cons c cs ih => intro t; simp [stripPrefixCI, ih]

theorem tryKeyword_sound (u p t : List Char)
    (h : tryKeyword u p = some t) :
    ∃ w, u = w ++ t ∧ w.map Char.toLower = p ∧ t ≠ [] ∧
      t.all Char.isDigit = true := by
  simp only [tryKeyword] at h
  split at h
  · next tail heq =>
    split at h
    · next hd =>
      cases h
      obtain ⟨w, hw, hmap⟩ := stripPrefixCI_sound p u t heq
      exact ⟨w, hw, hmap, hd.1, hd.2⟩
    · exact absurd h (by simp)
  · exact absurd h (by simp)

theorem tryKeywords_sound (u t : List Char) (h : tryKeywords u = some t) :
    ∃ p ∈ cdKeywords, tryKeyword u p = some t :=
  List.exists_of_findSome?_eq_some h

theorem tryKeywords_none_of_sep_mem (u : List Char)
    (hc : ∃ c ∈ u, isSepChar c = true) : tryKeywords u = none := by
  cases h : tryKeywords u with
  | none => rfl
  | some t =>
    exfalso
    obtain ⟨p, hp, ht⟩ := tryKeywords_sound u t h
    obtain ⟨w, rfl, hmap, _, hdig⟩ := tryKeyword_sound _ p t ht
    obtain ⟨c, hcmem, hcsep⟩ := hc
    rcases List.mem_append.1 hcmem with hw | htl
    · exact sep_toLower_not_mem_kw c hcsep p hp
        (hmap ▸ List.mem_map_of_mem Char.toLower hw)
    · have hd : c.isDigit = true := by
        have := List.all_eq_true.1 hdig c htl
        simpa using this
      rw [sep_not_digit c hcsep] at hd
      exact Bool.false_ne_true hd

theorem matchCdAt_sound (l ds : List Char) (h : matchCdAt l = some ds) :
    ∃ sep kw, l = sep :: (kw ++ ds) ∧ isSepChar sep = true ∧
      kw.map Char.toLower ∈ cdKeywords ∧ ds ≠ [] ∧
      ds.all Char.isDigit = true := by
  cases l with
  | nil => simp [matchCdAt] at h
  | cons c rest =>
    simp only [matchCdAt] at h
    split at h
    · next hsep =>
      obtain ⟨p, hp, ht⟩ := tryKeywords_sound rest ds h
      obtain ⟨w, rfl, hmap, hne, hdig⟩ := tryKeyword_sound _ p ds ht
      exact ⟨c, w, rfl, hsep, hmap ▸ hp, hne, hdig⟩
    · exact absurd h (by simp)

theorem map_toLower_pair (kw : List Char) (a b : Char)
    (h : kw.map Char.toLower = [a, b]) :
    ∃ k0 k1, kw = [k0, k1] ∧ k0.toLower = a ∧ k1.toLower = b := by
  rcases kw with _ | ⟨k0, _ | ⟨k1, _ | ⟨k2, kw3⟩⟩⟩
  · simp at h
  · simp at h
  · simp only [List.map_cons, List.map_nil, List.cons.injEq, and_true] at h
    exact ⟨k0, k1, rfl, h.1, h.2⟩
  · simp at h

theorem map_toLower_quad (kw : List Char) (a b c d : Char)
    (h : kw.map Char.toLower = [a, b, c, d]) :
    ∃ k0 k1 k2 k3, kw = [k0, k1, k2, k3] ∧ k0.toLower = a ∧
      k1.toLower = b ∧ k2.toLower = c ∧ k3.toLower = d := by
  rcases kw with _ | ⟨k0, _ | ⟨k1, _ | ⟨k2, _ | ⟨k3, _ | ⟨k4, kw5⟩⟩⟩⟩⟩
  · simp at h
  · simp at h
  · simp at h
  · simp at h
  · simp only [List.map_cons, List.map_nil, List.cons.injEq, and_true] at h
    exact ⟨k0, k1, k2, k3, rfl, h.1, h.2.1, h.2.2.1, h.2.2.2⟩
  · simp at h

theorem tryKeywords_complete (kw ds : List Char)
    (hkw : kw.map Char.toLower ∈ cdKeywords) (hne : ds ≠ [])
    (hdig : ds.all Char.isDigit = true) :
    tryKeywords (kw ++ ds) = some ds := by
  simp only [cdKeywords, List.mem_cons, List.not_mem_nil, or_false] at hkw
  rcases hkw with hkw | hkw | hkw | hkw
  · obtain ⟨k0, k1, rfl, h0, h1⟩ := map_toLower_pair kw _ _ hkw
    simp [tryKeywords, cdKeywords, List.findSome?_cons, tryKeyword,
      stripPrefixCI, h0, h1, hne, hdig]
  · obtain ⟨k0, k1, k2, k3, rfl, h0, h1, h2, h3⟩ := map_toLower_quad kw _ _ _ _ hkw
    simp [tryKeywords, cdKeywords, List.findSome?_cons, tryKeyword,
      stripPrefixCI, h0, h1, h2, h3, hne, hdig]
  · obtain ⟨k0, k1, k2, k3, rfl, h0, h1, h2, h3⟩ := map_toLower_quad kw _ _ _ _ hkw
    simp [tryKeywords, cdKeywords, List.findSome?_cons, tryKeyword,
      stripPrefixCI, h0, h1, h2, h3, hne, hdig]
  · obtain ⟨k0, k1, k2, k3, rfl, h0, h1, h2, h3⟩ := map_toLower_quad kw _ _ _ _ hkw
    simp [tryKeywords, cdKeywords, List.findSome?_cons, tryKeyword,
      stripPrefixCI, h0, h1, h2, h3, hne, hdig]

theorem matchCdAt_complete (sep : Char) (kw ds : List Char)
    (hsep : isSepChar sep = true) (hkw : kw.map Char.toLower ∈ cdKeywords)
    (hne : ds ≠ []) (hdig : ds.all Char.isDigit = true) :
    matchCdAt (sep :: (kw ++ ds)) = some ds := by
  simp only [matchCdAt, hsep, if_true]
  exact tryKeywords_complete kw ds hkw hne hdig

theorem findCdMatch_complete (name : List Char) (sep : Char)
    (kw ds : List Char) (hsep : isSepChar sep = true)
    (hkw : kw.map Char.toLower ∈ cdKeywords) (hne : ds ≠ [])
    (hdig : ds.all Char.isDigit = true) :
    findCdMatch (name ++ sep :: (kw ++ ds)) = some (name.length, ds) := by
  induction name with
  | nil =>
    simp only [List.nil_append, findCdMatch,
      matchCdAt_complete sep kw ds hsep hkw hne hdig, List.length_nil]
  | cons a rest ih =>
    have hnone : matchCdAt (a :: (rest ++ sep :: (kw ++ ds))) = none := by
      simp only [matchCdAt]
      split
      · exact tryKeywords_none_of_sep_mem _
          ⟨sep, List.mem_append_right _ (List.mem_cons_self _ _), hsep⟩
      · rfl
    simp only [List.cons_append, findCdMatch, List.append_eq, hnone, ih,
      Option.map_some, List.length_cons]
    rfl

theorem findCdMatch_sound (s : List Char) :
    ∀ i ds, findCdMatch s = some (i, ds) →
      ∃ name sep kw, s = name ++ sep :: (kw ++ ds) ∧ name.length = i ∧
        isSepChar sep = true ∧ kw.map Char.toLower ∈ cdKeywords ∧
        ds ≠ [] ∧ ds.all Char.isDigit = true := by
  induction s with
  | nil => intro i ds h; simp [findCdMatch] at h
  | cons c rest ih =>
    intro i ds h
    simp only [findCdMatch] at h
    cases hm : matchCdAt (c :: rest) with
    | some ds2 =>
      rw [hm] at h
      cases h
      obtain ⟨sep, kw, heq, hsep, hkw, hne, hdig⟩ := matchCdAt_sound _ _ hm
      exact ⟨[], sep, kw, heq, rfl, hsep, hkw, hne, hdig⟩
    | none =>
      rw [hm] at h
      cases hr : findCdMatch rest with
      | none => rw [hr] at h; exact absurd h (by simp)
      | some p =>
        obtain ⟨j, ds2⟩ := p
        rw [hr] at h
        simp only [Option.map_some, Option.some.injEq, Prod.mk.injEq] at h
        obtain ⟨rfl, rfl⟩ := h
        obtain ⟨name, sep, kw, heq, hlen, hsep, hkw, hne, hdig⟩ :=
          ih j ds2 hr
        exact ⟨c :: name, sep, kw, by simp [heq], by simp [hlen], hsep, hkw,
          hne, hdig⟩

/-! ## Claim C2 helpers: extension stripping -/

theorem lastDotIdx_concat (stem ext : List Char) (hdot : '.' ∉ ext) :
    lastDotIdx (stem ++ '.' :: ext) = some stem.length := by
  have hextrev : List.findIdx? (fun c => c = '.') ext.reverse = none := by
    rw [List.findIdx?_eq_none_iff]
    intro x hx
    simp only [decide_eq_false_iff_not]
    intro hxx
    exact hdot (hxx ▸ List.mem_reverse.1 hx)
  have hfind : List.findIdx? (fun c => c = '.') (stem ++ '.' :: ext).reverse
      = some ext.length := by
    rw [List.reverse_append, List.reverse_cons]
    rw [List.findIdx?_append, List.findIdx?_append, hextrev]
    have hone : List.findIdx? (fun c => c = '.') ['.'] = some 0 := rfl
    rw [hone]
    simp [List.length_reverse]
  simp only [lastDotIdx, hfind]
  congr 1
  simp only [List.length_append, List.length_cons]
  omega

theorem extnameL_concat (stem ext : List Char) (hstem : stem ≠ [])
    (hextne : ext ≠ []) (hdot : '.' ∉ ext) :
    extnameL (stem ++ '.' :: ext) = '.' :: ext := by
  have hslen : 0 < stem.length := List.length_pos.2 hstem
  have helen : 0 < ext.length := List.length_pos.2 hextne
  simp only [extnameL, lastDotIdx_concat stem ext hdot]
  rw [if_neg (by omega)]
  rw [if_neg (by
    intro h
    have := congrArg List.length h
    simp only [List.length_append, List.length_cons, List.length_nil] at this
    omega)]
  exact List.drop_left stem ('.' :: ext)

theorem stripExtL_concat (stem ext : List Char) (hstem : stem ≠ [])
    (hextne : ext ≠ []) (hdot : '.' ∉ ext) :
    stripExtL (stem ++ '.' :: ext) = stem := by
  simp only [stripExtL, extnameL_concat stem ext hstem hextne hdot]
  have : (stem ++ '.' :: ext).length - ('.' :: ext).length = stem.length := by
    simp only [List.length_append, List.length_cons]
    omega
  rw [this]
  exact List.take_left stem ('.' :: ext)

/-! ## Claim C2 -/

/-- C2 (status: corrected).  The original claim is refuted by
`c2_counterexample` below: the pattern is matched against the
extension-stripped name, so a file name with no `.<ext>` part (e.g.
`Movie-cd2`) still gets a positive part index, while the claim's
"every other file name" clause demands index `0` for it.  Amended
claim, changed only as the counterexample forces: whenever the
extension-stripped name decomposes as `<name><sep><keyword><digits>`
(match anchored at the end), `parseCdInfo` returns base `<name>` and
the digits as the index (conjunct 1; the decomposition is unique, and
conjunct 3 recovers the original positive direction for names of the
form `<name><sep><keyword><digits>.<ext>` with a dot-free extension);
for every file name admitting no such decomposition it returns the
extension-stripped name with index `0` (conjunct 2). -/
theorem c2_parse_cd_amended :
    (∀ (fn name : List Char) (sep : Char) (kw ds : List Char),
      CdDecomp (stripExtL fn) name sep kw ds →
      parseCdInfoL fn = (name, digitsToNat ds)) ∧
    (∀ fn : List Char,
      (¬ ∃ name sep kw ds, CdDecomp (stripExtL fn) name sep kw ds) →
      parseCdInfoL fn = (stripExtL fn, 0)) ∧
    (∀ stem ext : List Char, stem ≠ [] → ext ≠ [] → '.' ∉ ext →
      stripExtL (stem ++ '.' :: ext) = stem) := by
  refine ⟨?_, ?_, stripExtL_concat⟩
  · intro fn name sep kw ds hd
    obtain ⟨heq, hsep, hkw, hne, hdig⟩ := hd
    simp only [parseCdInfoL, heq,
      findCdMatch_complete name sep kw ds hsep hkw hne hdig]
    rw [List.take_left]
  · intro fn hnone
    simp only [parseCdInfoL]
    cases hm : findCdMatch (stripExtL fn) with
    | none => rfl
    | some p =>
      exfalso
      obtain ⟨i, ds⟩ := p
      obtain ⟨name, sep, kw, heq, _, hsep, hkw, hne, hdig⟩ :=
        findCdMatch_sound _ i ds hm
      exact hnone ⟨name, sep, kw, ds, heq, hsep, hkw, hne, hdig⟩

/-- Counterexample for C2 as frozen: `"Movie-cd2"` contains no dot, so
it is not of the form `<name><sep><keyword><digits>.<ext>`; the claim
therefore demands `cdIndex = 0` and base name `"Movie-cd2"`, but
`parseCdInfo` returns base `"Movie"` with index `2` (the pattern is
applied to the extension-stripped name, which here is the whole name). -/
theorem c2_counterexample :
    ('.' ∉ "Movie-cd2".toList) ∧
      parseCdInfoL "Movie-cd2".toList = ("Movie".toList, 2) := by
  constructor
  · decide
  · decide

/-- Witness for C2: conjunct 1 of the amended theorem applied at
`"Movie-cd2.mkv"` with the decomposition `Movie · - · cd · 2`,
hypothesis discharged by evaluation. -/
theorem c2_witness :
    CdDecomp (stripExtL "Movie-cd2.mkv".toList) "Movie".toList '-'
        "cd".toList "2".toList ∧
      parseCdInfoL "Movie-cd2.mkv".toList = ("Movie".toList, 2) :=
  ⟨by decide,
    c2_parse_cd_amended.1 "Movie-cd2.mkv".toList "Movie".toList '-'
      "cd".toList "2".toList (by decide)⟩

/-! ## Generic lemmas: stable sort and Map grouping -/

theorem jsInsert_perm (le : α → α → Bool) (x : α) (l : List α) :
    (jsInsert le x l).Perm (x :: l) := by
  induction l with
  | nil => exact List.Perm.refl _
  | cons y ys ih =>
    simp only [jsInsert]
    split
    · exact ((ih.cons y).trans (List.Perm.swap x y ys))
    · exact List.Perm.refl _

theorem jsSort_perm (le : α → α → Bool) (l : List α) :
    (jsSort le l).Perm l := by
  induction l with
  | nil => exact List.Perm.refl _
  | cons x xs ih =>
    exact (jsInsert_perm le x (jsSort le xs)).trans (ih.cons x)

theorem jsSort_mem (le : α → α → Bool) (l : List α) (a : α) :
    a ∈ jsSort le l ↔ a ∈ l :=
  (jsSort_perm le l).mem_iff

theorem jsSort_length (le : α → α → Bool) (l : List α) :
    (jsSort le l).length = l.length :=
  (jsSort_perm le l).length_eq

theorem jsInsert_pairwise (le : α → α → Bool)
    (htot : ∀ a b, le a b = true ∨ le b a = true)
    (htrans : ∀ a b c, le a b = true → le b c = true → le a c = true)
    (x : α) (l : List α) (hl : List.Pairwise (fun a b => le a b = true) l) :
    List.Pairwise (fun a b => le a b = true) (jsInsert le x l) := by
  induction l with
  | nil => exact List.pairwise_singleton _ _
  | cons y ys ih =>
    rw [List.pairwise_cons] at hl
    obtain ⟨hy, hys⟩ := hl
    simp only [jsInsert]
    split
    · next hcond =>
      have h1 : le y x = true := by
        revert hcond; cases le y x <;> simp
      rw [List.pairwise_cons]
      refine ⟨?_, ih hys⟩
      intro z hz
      rcases List.mem_cons.1 ((jsInsert_perm le x ys).mem_iff.1 hz) with
        rfl | hzys
      · exact h1
      · exact hy z hzys
    · next hcond =>
      have hxy : le x y = true := by
        rcases htot x y with h | h
        · exact h
        · by_cases h2 : le x y = true
          · exact h2
          · exfalso
            apply hcond
            have h3 : le x y = false := by
              revert h2; cases le x y <;> simp
            rw [h, h3]
            rfl
      rw [List.pairwise_cons]
      refine ⟨?_, List.pairwise_cons.2 ⟨hy, hys⟩⟩
      intro z hz
      rcases List.mem_cons.1 hz with rfl | hzys
      · exact hxy
      · exact htrans x y z hxy (hy z hzys)

theorem jsSort_pairwise (le : α → α → Bool)
    (htot : ∀ a b, le a b = true ∨ le b a = true)
    (htrans : ∀ a b c, le a b = true → le b c = true → le a c = true)
    (l : List α) :
    List.Pairwise (fun a b => le a b = true) (jsSort le l) := by
  induction l with
  | nil => exact List.Pairwise.nil
  | cons x xs ih => exact jsInsert_pairwise le htot htrans x _ ih

theorem bucketGet_bucketPush [DecidableEq κ] (m : List (κ × List α))
    (k : κ) (x : α) (k2 : κ) :
    bucketGet (bucketPush m k x) k2 =
      if k2 = k then bucketGet m k2 ++ [x] else bucketGet m k2 := by
  induction m with
  | nil =>
    by_cases h : k2 = k
    · subst h; simp [bucketPush, bucketGet]
    · have h2 : ¬(k = k2) := fun hh => h hh.symm
      simp [bucketPush, bucketGet, h, h2]
  | cons hd tl ih =>
    obtain ⟨hk, hl⟩ := hd
    simp only [bucketPush]
    by_cases h1 : hk = k
    · subst h1
      by_cases h2 : k2 = hk
      · subst h2; simp [bucketGet]
      · have h3 : ¬(hk = k2) := fun hh => h2 hh.symm
        simp [bucketGet, h2, h3]
    · simp only [if_neg h1, bucketGet]
      by_cases h2 : hk = k2
      · subst h2
        rw [if_pos rfl, if_neg (fun hh : hk = k => h1 hh), if_pos rfl]
      · rw [if_neg h2, ih, if_neg h2]

theorem bucketGet_foldl [DecidableEq κ] (key : α → κ) (xs : List α) :
    ∀ (m : List (κ × List α)) (k2 : κ),
      bucketGet (xs.foldl (fun m x => bucketPush m (key x) x) m) k2 =
        bucketGet m k2 ++ xs.filter (fun x => key x = k2) := by
  induction xs with
  | nil => intro m k2; simp [List.filter]
  | cons x xs ih =>
    intro m k2
    simp only [List.foldl_cons, ih, bucketGet_bucketPush, List.filter_cons]
    by_cases h : key x = k2
    · rw [if_pos (by exact h.symm), if_pos (by simp [h])]
      simp
    · rw [if_neg (fun hh => h hh.symm), if_neg (by simp [h])]

/-- The bucket of `k2` in `bucketBy key xs` is exactly the sublist of
`xs` with that key, in order. -/
theorem bucketGet_bucketBy [DecidableEq κ] (key : α → κ) (xs : List α)
    (k2 : κ) :
    bucketGet (bucketBy key xs) k2 = xs.filter (fun x => key x = k2) := by
  simp [bucketBy, bucketGet_foldl key xs [] k2, bucketGet]

theorem bucketGet_mem [DecidableEq κ] (m : List (κ × List α)) (k : κ)
    (h : bucketGet m k ≠ []) : (k, bucketGet m k) ∈ m := by
  induction m with
  | nil => simp [bucketGet] at h
  | cons hd tl ih =>
    obtain ⟨hk, hl⟩ := hd
    simp only [bucketGet] at h ⊢
    split
    · next heq => subst heq; exact List.mem_cons_self _ _
    · next heq => exact List.mem_cons_of_mem _ (by
        rw [if_neg heq] at h
        exact ih h)

theorem bucketPush_keys_subset [DecidableEq κ] (m : List (κ × List α))
    (k : κ) (x : α) :
    ∀ k2, k2 ∈ (bucketPush m k x).map Prod.fst →
      k2 ∈ m.map Prod.fst ∨ k2 = k := by
  induction m with
  | nil =>
    intro k2 h
    simp only [bucketPush, List.map_cons, List.map_nil,
      List.mem_singleton] at h
    exact Or.inr h
  | cons hd tl ih =>
    obtain ⟨hk, hl⟩ := hd
    intro k2 h
    simp only [bucketPush] at h
    split at h
    · simp only [List.map_cons, List.mem_cons] at h
      rcases h with rfl | h
      · exact Or.inl (by simp)
      · exact Or.inl (by simp [h])
    · simp only [List.map_cons, List.mem_cons] at h
      rcases h with rfl | h
      · exact Or.inl (by simp)
      · rcases ih k2 h with hh | hh
        · exact Or.inl (by simp [hh])
        · exact Or.inr hh

theorem bucketPush_keys_nodup [DecidableEq κ] (m : List (κ × List α))
    (k : κ) (x : α) (h : (m.map Prod.fst).Nodup) :
    ((bucketPush m k x).map Prod.fst).Nodup := by
  induction m with
  | nil => simp [bucketPush]
  | cons hd tl ih =>
    obtain ⟨hk, hl⟩ := hd
    simp only [List.map_cons, List.nodup_cons] at h
    obtain ⟨hnk, hnd⟩ := h
    simp only [bucketPush]
    split
    · simp only [List.map_cons, List.nodup_cons]
      exact ⟨hnk, hnd⟩
    · next hne =>
      simp only [List.map_cons, List.nodup_cons]
      refine ⟨?_, ih hnd⟩
      intro hmem
      rcases bucketPush_keys_subset tl k x hk hmem with hh | hh
      · exact hnk hh
      · exact hne hh

theorem bucketBy_keys_nodup [DecidableEq κ] (key : α → κ) (xs : List α) :
    ((bucketBy key xs).map Prod.fst).Nodup := by
  suffices h : ∀ m : List (κ × List α), (m.map Prod.fst).Nodup →
      (((xs.foldl (fun m x => bucketPush m (key x) x) m)).map Prod.fst).Nodup by
    exact h [] (by simp)
  induction xs with
  | nil => intro m hm; simpa
  | cons x xs ih =>
    intro m hm
    exact ih _ (bucketPush_keys_nodup m (key x) x hm)

theorem bucketBy_keys_sound [DecidableEq κ] (key : α → κ) (xs : List α) :
    ∀ k ∈ (bucketBy key xs).map Prod.fst, ∃ x ∈ xs, key x = k := by
  suffices h : ∀ m, ∀ k ∈ ((xs.foldl
      (fun m x => bucketPush m (key x) x) m)).map Prod.fst,
      k ∈ m.map Prod.fst ∨ ∃ x ∈ xs, key x = k by
    intro k hk
    rcases h [] k hk with h0 | h0
    · simp at h0
    · exact h0
  induction xs with
  | nil => intro m k h; exact Or.inl h
  | cons x xs ih =>
    intro m k h
    rcases ih (bucketPush m (key x) x) k h with h0 | h0
    · rcases bucketPush_keys_subset m (key x) x k h0 with h1 | h1
      · exact Or.inl h1
      · exact Or.inr ⟨x, List.mem_cons_self _ _, h1.symm⟩
    · obtain ⟨y, hy, hky⟩ := h0
      exact Or.inr ⟨y, List.mem_cons_of_mem _ hy, hky⟩

theorem bucketGet_of_mem_nodup [DecidableEq κ] :
    ∀ (m : List (κ × List α)) (k : κ) (l : List α),
      (m.map Prod.fst).Nodup → (k, l) ∈ m → bucketGet m k = l := by
  intro m
  induction m with
  | nil => intro k l _ h; simp at h
  | cons hd tl ih =>
    intro k l hnd h
    obtain ⟨hk, hl⟩ := hd
    simp only [List.map_cons, List.nodup_cons] at hnd
    rcases List.mem_cons.1 h with heq | hmem
    · cases heq; simp [bucketGet]
    · simp only [bucketGet]
      split
      · next heq =>
        subst heq
        exact absurd (List.mem_map_of_mem Prod.fst hmem) (by simpa using hnd.1)
      · exact ih k l hnd.2 hmem

/-- Every stored bucket is the filter of the input at its key, and is
non-empty. -/
theorem mem_bucketBy_eq_filter [DecidableEq κ] (key : α → κ) (xs : List α)
    (k : κ) (l : List α) (h : (k, l) ∈ bucketBy key xs) :
    l = xs.filter (fun x => key x = k) ∧ l ≠ [] := by
  have hnd := bucketBy_keys_nodup key xs
  have hget := bucketGet_of_mem_nodup (bucketBy key xs) k l hnd h
  have hfil := bucketGet_bucketBy key xs k
  rw [hget] at hfil
  refine ⟨hfil, ?_⟩
  obtain ⟨x, hx, hkx⟩ := bucketBy_keys_sound key xs k
    (List.mem_map_of_mem Prod.fst h)
  intro hnil
  have hxmem : x ∈ xs.filter (fun x => key x = k) :=
    List.mem_filter.2 ⟨hx, by simp [hkx]⟩
  rw [← hfil, hnil] at hxmem
  simp at hxmem

theorem mem_bucketBy_of_mem [DecidableEq κ] (key : α → κ) (xs : List α)
    (x : α) (hx : x ∈ xs) :
    (key x, xs.filter (fun y => key y = key x)) ∈ bucketBy key xs := by
  have hne : bucketGet (bucketBy key xs) (key x) ≠ [] := by
    rw [bucketGet_bucketBy]
    intro h
    have : x ∈ xs.filter (fun y => key y = key x) :=
      List.mem_filter.2 ⟨hx, by simp⟩
    rw [h] at this
    simp at this
  have := bucketGet_mem (bucketBy key xs) (key x) hne
  rwa [bucketGet_bucketBy] at this

theorem one_lt_length_of_two_mem {l : List α} {a b : α} (ha : a ∈ l)
    (hb : b ∈ l) (hab : a ≠ b) : 1 < l.length := by
  cases l with
  | nil => simp at ha
  | cons x xs =>
    cases xs with
    | nil =>
      simp only [List.mem_singleton] at ha hb
      exact absurd (ha.trans hb.symm) hab
    | cons y ys => simp [List.length_cons]

/-! ## Claim C4 helpers -/

theorem cdLe_total (a b : VideoFile) : cdLe a b = true ∨ cdLe b a = true := by
  simp only [cdLe, decide_eq_true_eq]
  omega

theorem cdLe_trans (a b c : VideoFile) (h1 : cdLe a b = true)
    (h2 : cdLe b c = true) : cdLe a c = true := by
  simp only [cdLe, decide_eq_true_eq] at *
  omega

theorem groupVideos_mem_iff (cmp : String → String → Ordering)
    (files : List VideoFile) (grp : VideoGroup) :
    grp ∈ groupVideos cmp files ↔
      ∃ kv ∈ bucketBy groupKey files, grp = mkVideoGroup kv := by
  simp only [groupVideos, jsSort_mem, List.mem_map]
  constructor
  · rintro ⟨kv, h1, rfl⟩; exact ⟨kv, h1, rfl⟩
  · rintro ⟨kv, h1, rfl⟩; exact ⟨kv, h1, rfl⟩

/-- The key strings `a ++ "|||" ++ b` are injective in `(a, b)` as soon
as the left components are pipe-free: the first pipe run locates the
separator. -/
theorem sep_split_unique :
    ∀ (u1 u2 v1 v2 : List Char), '|' ∉ u1 → '|' ∉ u2 →
      u1 ++ '|' :: '|' :: '|' :: v1 = u2 ++ '|' :: '|' :: '|' :: v2 →
      u1 = u2 ∧ v1 = v2 := by
  intro u1
  induction u1 with
  | nil =>
    intro u2 v1 v2 _ hu2 h
    cases u2 with
    | nil =>
      simp only [List.nil_append, List.cons.injEq, true_and] at h
      exact ⟨rfl, by tauto⟩
    | cons c u2t =>
      exfalso
      simp only [List.nil_append, List.cons_append, List.cons.injEq] at h
      exact hu2 (h.1 ▸ List.mem_cons_self c u2t)
  | cons c u1t ih =>
    intro u2 v1 v2 hu1 hu2 h
    cases u2 with
    | nil =>
      exfalso
      simp only [List.cons_append, List.nil_append, List.cons.injEq] at h
      exact hu1 (h.1.symm ▸ List.mem_cons_self c u1t)
    | cons d u2t =>
      simp only [List.cons_append, List.cons.injEq] at h
      obtain ⟨rfl, htail⟩ := h
      have := ih u2t v1 v2 (fun hm => hu1 (List.mem_cons_of_mem _ hm))
        (fun hm => hu2 (List.mem_cons_of_mem _ hm)) htail
      exact ⟨by rw [this.1], this.2⟩

/-! ## Claim C4 -/

/-- C4 (status: corrected).  The grouping key is the single string
`dirPath ++ "|||" ++ baseName`, so two files share a `MovieGroup` if
and only if those key strings are equal (conjunct 1) — which, whenever
the directory paths contain no `|` character, is the same as identical
(case-sensitive) directory and identical base name (conjunct 3), but
not in general: `c4_counterexample` shows two files with different
directories and different base names landing in one group.  The rest of
the claim is as stated (conjunct 2): within each group parts are sorted
ascending by part index (index `0` sorting lowest, as it is the least
`Nat`), `partCount` is the number of files in the group, and the primary
file is a part with the lowest index. -/
theorem c4_grouping_amended :
    (∀ (cmp : String → String → Ordering) (files : List VideoFile)
        (f g : VideoFile), f ∈ files → g ∈ files →
      (groupKey f = groupKey g ↔
        ∃ grp ∈ groupVideos cmp files, f ∈ grp.parts ∧ g ∈ grp.parts)) ∧
    (∀ (cmp : String → String → Ordering) (files : List VideoFile)
        (grp : VideoGroup), grp ∈ groupVideos cmp files →
      grp.parts ≠ [] ∧ grp.partCount = grp.parts.length ∧
      (∀ f ∈ grp.parts, f ∈ files ∧ groupKey f = grp.key) ∧
      List.Pairwise (fun a b => a.cdIndex ≤ b.cdIndex) grp.parts ∧
      grp.primaryPath = grp.parts.headI.path ∧
      (∀ f ∈ grp.parts, grp.parts.headI.cdIndex ≤ f.cdIndex)) ∧
    (∀ f g : VideoFile, '|' ∉ f.dirPath.data → '|' ∉ g.dirPath.data →
      (groupKey f = groupKey g ↔
        (f.dirPath = g.dirPath ∧ f.baseName = g.baseName))) := by
  have hmain : ∀ (cmp : String → String → Ordering)
      (files : List VideoFile) (grp : VideoGroup),
      grp ∈ groupVideos cmp files →
      grp.parts ≠ [] ∧ grp.partCount = grp.parts.length ∧
      (∀ f ∈ grp.parts, f ∈ files ∧ groupKey f = grp.key) ∧
      List.Pairwise (fun a b => a.cdIndex ≤ b.cdIndex) grp.parts ∧
      grp.primaryPath = grp.parts.headI.path ∧
      (∀ f ∈ grp.parts, grp.parts.headI.cdIndex ≤ f.cdIndex) := by
    intro cmp files grp hg
    obtain ⟨⟨k, parts0⟩, hkv, rfl⟩ := (groupVideos_mem_iff cmp files grp).1 hg
    obtain ⟨hfil, hne⟩ := mem_bucketBy_eq_filter groupKey files k parts0 hkv
    have hparts : (mkVideoGroup (k, parts0)).parts = jsSort cdLe parts0 := rfl
    have hsorted : List.Pairwise (fun a b => cdLe a b = true)
        (jsSort cdLe parts0) :=
      jsSort_pairwise cdLe cdLe_total cdLe_trans parts0
    refine ⟨?_, rfl, ?_, ?_, rfl, ?_⟩
    · rw [hparts]
      intro h0
      have := jsSort_length cdLe parts0
      rw [h0] at this
      exact hne (List.length_eq_zero.1 this.symm)
    · intro f hf
      rw [hparts, jsSort_mem, hfil] at hf
      have := List.mem_filter.1 hf
      exact ⟨this.1, by simpa using this.2⟩
    · rw [hparts]
      exact hsorted.imp (by intro a b h; simpa [cdLe] using h)
    · rw [hparts]
      intro f hf
      cases hq : jsSort cdLe parts0 with
      | nil => rw [hq] at hf; simp at hf
      | cons p rest =>
        rw [hq] at hf hsorted
        simp only [List.headI]
        rcases List.mem_cons.1 hf with rfl | hrest
        · exact Nat.le_refl _
        · have := (List.pairwise_cons.1 hsorted).1 f hrest
          simpa [cdLe] using this
  refine ⟨?_, hmain, ?_⟩
  · intro cmp files f g hf hg
    constructor
    · intro hkey
      have hkv := mem_bucketBy_of_mem groupKey files f hf
      refine ⟨mkVideoGroup (groupKey f,
          files.filter (fun y => groupKey y = groupKey f)), ?_, ?_, ?_⟩
      · exact (groupVideos_mem_iff cmp files _).2 ⟨_, hkv, rfl⟩
      · show f ∈ jsSort cdLe _
        rw [jsSort_mem]
        exact List.mem_filter.2 ⟨hf, by simp⟩
      · show g ∈ jsSort cdLe _
        rw [jsSort_mem]
        exact List.mem_filter.2 ⟨hg, by simp [hkey]⟩
    · rintro ⟨grp, hgrp, hfp, hgp⟩
      obtain ⟨_, _, hmem, _, _, _⟩ := hmain cmp files grp hgrp
      exact ((hmem f hfp).2).trans ((hmem g hgp).2).symm
  · intro f g hfp hgp
    constructor
    · intro hkey
      have hdata := congrArg String.data hkey
      simp only [groupKey, String.data_append] at hdata
      have := sep_split_unique f.dirPath.data g.dirPath.data
        f.baseName.data g.baseName.data hfp hgp (by simpa using hdata)
      exact ⟨String.ext this.1, String.ext this.2⟩
    · rintro ⟨h1, h2⟩
      simp [groupKey, h1, h2]

/-- Counterexample for C4 as frozen: the key is string concatenation
with separator `|||`, so directory `/x|||y` with base `z` collides with
directory `/x` with base `y|||z`: the two files differ in directory and
in base name (the claim then demands separate groups), yet
`groupVideos` puts them into one single group. -/
theorem c4_counterexample :
    ({ path := "/x|||y/z.mkv", fileName := "z.mkv", dirPath := "/x|||y",
       size := 0, nfoPath := none, metadata := none, baseName := "z",
       cdIndex := 0 } : VideoFile).dirPath
        ≠ ({ path := "/x/y|||z.mkv", fileName := "y|||z.mkv",
             dirPath := "/x", size := 0, nfoPath := none, metadata := none,
             baseName := "y|||z", cdIndex := 0 } : VideoFile).dirPath ∧
    ({ path := "/x|||y/z.mkv", fileName := "z.mkv", dirPath := "/x|||y",
       size := 0, nfoPath := none, metadata := none, baseName := "z",
       cdIndex := 0 } : VideoFile).baseName
        ≠ ({ path := "/x/y|||z.mkv", fileName := "y|||z.mkv",
             dirPath := "/x", size := 0, nfoPath := none, metadata := none,
             baseName := "y|||z", cdIndex := 0 } : VideoFile).baseName ∧
    (groupVideos (fun a b => compare a b)
      [{ path := "/x|||y/z.mkv", fileName := "z.mkv", dirPath := "/x|||y",
         size := 0, nfoPath := none, metadata := none, baseName := "z",
         cdIndex := 0 },
       { path := "/x/y|||z.mkv", fileName := "y|||z.mkv", dirPath := "/x",
         size := 0, nfoPath := none, metadata := none, baseName := "y|||z",
         cdIndex := 0 }]).length = 1 ∧
    (∀ grp ∈ groupVideos (fun a b => compare a b)
      [{ path := "/x|||y/z.mkv", fileName := "z.mkv", dirPath := "/x|||y",
         size := 0, nfoPath := none, metadata := none, baseName := "z",
         cdIndex := 0 },
       { path := "/x/y|||z.mkv", fileName := "y|||z.mkv", dirPath := "/x",
         size := 0, nfoPath := none, metadata := none, baseName := "y|||z",
         cdIndex := 0 }], grp.partCount = 2) := by
  refine ⟨by decide, by decide, by decide, by decide⟩

/-- Witness for C4: two parts of one movie in the same directory — the
amended theorem's conjunct 1 applied at a concrete file list puts them
into one group. -/
theorem c4_witness :
    ∃ grp ∈ groupVideos (fun a b => compare a b)
      [{ path := "/m/A-cd1.mkv", fileName := "A-cd1.mkv", dirPath := "/m",
         size := 0, nfoPath := none, metadata := none, baseName := "A",
         cdIndex := 1 },
       { path := "/m/A-cd2.mkv", fileName := "A-cd2.mkv", dirPath := "/m",
         size := 0, nfoPath := none, metadata := none, baseName := "A",
         cdIndex := 2 }],
      ({ path := "/m/A-cd1.mkv", fileName := "A-cd1.mkv", dirPath := "/m",
         size := 0, nfoPath := none, metadata := none, baseName := "A",
         cdIndex := 1 } : VideoFile) ∈ grp.parts ∧
      ({ path := "/m/A-cd2.mkv", fileName := "A-cd2.mkv", dirPath := "/m",
         size := 0, nfoPath := none, metadata := none, baseName := "A",
         cdIndex := 2 } : VideoFile) ∈ grp.parts :=
  (c4_grouping_amended.1 (fun a b => compare a b) _ _ _
    (by decide) (by decide)).1 (by decide)

/-! ## Claim C5 helpers -/

theorem bucketBy_keys_mem_iff [DecidableEq κ] (key : α → κ) (xs : List α)
    (k : κ) :
    k ∈ (bucketBy key xs).map Prod.fst ↔ ∃ x ∈ xs, key x = k := by
  constructor
  · exact bucketBy_keys_sound key xs k
  · rintro ⟨x, hx, rfl⟩
    exact List.mem_map_of_mem Prod.fst (mem_bucketBy_of_mem key xs x hx)

theorem foldr_min_le (l : List Nat) (init : Nat) :
    ∀ j ∈ l, l.foldr min init ≤ j := by
  induction l with
  | nil => intro j hj; simp at hj
  | cons x xs ih =>
    intro j hj
    rcases List.mem_cons.1 hj with rfl | hj
    · exact Nat.min_le_left _ _
    · exact le_trans (Nat.min_le_right _ _) (ih j hj)

theorem foldr_min_le_init (l : List Nat) (init : Nat) :
    l.foldr min init ≤ init := by
  induction l with
  | nil => exact Nat.le_refl _
  | cons x xs ih => exact le_trans (Nat.min_le_right _ _) ih

theorem foldr_min_mem (l : List Nat) (init : Nat) :
    l.foldr min init ∈ l ∨ l.foldr min init = init := by
  induction l with
  | nil => exact Or.inr rfl
  | cons x xs ih =>
    simp only [List.foldr_cons]
    rcases min_choice x (xs.foldr min init) with h | h
    · exact Or.inl (by rw [h]; exact List.mem_cons_self _ _)
    · rcases ih with h2 | h2
      · exact Or.inl (by rw [h]; exact List.mem_cons_of_mem _ h2)
      · exact Or.inr (by rw [h, h2])

/-- The minimum the mixed branch computes is in the index list and
bounds it from below. -/
theorem lowestCd_spec (l : List Nat) (hne : l ≠ []) :
    l.foldr min l.headI ∈ l ∧ ∀ j ∈ l, l.foldr min l.headI ≤ j := by
  refine ⟨?_, foldr_min_le l l.headI⟩
  rcases foldr_min_mem l l.headI with h | h
  · exact h
  · rw [h]
    cases l with
    | nil => exact absurd rfl hne
    | cons x xs => exact List.mem_cons_self _ _

/-- The bucket of index `i` is the sublist of the group with that
index. -/
theorem cdMapOf_get (baseFiles : List VideoFile) (i : Nat) :
    bucketGet (cdMapOf baseFiles) i
      = baseFiles.filter (fun f => f.cdIndex = i) :=
  bucketGet_bucketBy _ _ i

/-- Membership in `cdIndices`: the positive indices present. -/
theorem cdIndicesOf_mem (baseFiles : List VideoFile) (i : Nat) :
    i ∈ cdIndicesOf baseFiles ↔
      ((∃ f ∈ baseFiles, f.cdIndex = i) ∧ 0 < i) := by
  rw [cdIndicesOf, List.mem_filter, cdMapOf, bucketBy_keys_mem_iff]
  simp

/-- In a group with a positive index, `lowestCdOf` is the lowest
positive index present. -/
theorem lowestCdOf_isLowest (baseFiles : List VideoFile)
    (hne : cdIndicesOf baseFiles ≠ []) :
    isLowestPosIn baseFiles (lowestCdOf baseFiles) := by
  obtain ⟨hmem, hbound⟩ := lowestCd_spec _ hne
  rw [← lowestCdOf] at hmem hbound
  obtain ⟨⟨f0, hf0, hidx⟩, hpos⟩ := (cdIndicesOf_mem baseFiles _).1 hmem
  refine ⟨hpos, ⟨f0, hf0, hidx⟩, ?_⟩
  intro h hh hhpos
  exact hbound _ ((cdIndicesOf_mem baseFiles h.cdIndex).2 ⟨⟨h, hh, rfl⟩, hhpos⟩)

/-- A positive lowest index is unique. -/
theorem isLowestPosIn_unique (l : List VideoFile) (i j : Nat)
    (hi : isLowestPosIn l i) (hj : isLowestPosIn l j) : i = j := by
  obtain ⟨hip, ⟨fi, hfi, hfidx⟩, hib⟩ := hi
  obtain ⟨hjp, ⟨fj, hfj, hfjdx⟩, hjb⟩ := hj
  have h1 := hib fj hfj (by omega)
  have h2 := hjb fi hfi (by omega)
  omega

/-- What holds of every cluster one base-name group produces: more than
one member, members drawn from the group, and membership follows the
part-index rule (equal indices, or the zero/lowest-positive merge in a
mixed group). -/
theorem clustersOfBase_sound (baseFiles : List VideoFile)
    (c : DuplicateGroup) (hc : c ∈ clustersOfBase baseFiles) :
    1 < c.files.length ∧ (∀ f ∈ c.files, f ∈ baseFiles) ∧
    (∀ f g, f ∈ c.files → g ∈ c.files →
      (f.cdIndex = g.cdIndex ∨
        (mixedIn baseFiles ∧
          ((f.cdIndex = 0 ∧ isLowestPosIn baseFiles g.cdIndex) ∨
            (g.cdIndex = 0 ∧ isLowestPosIn baseFiles f.cdIndex))))) := by
  simp only [clustersOfBase] at hc
  split at hc
  · next hcond =>
    rw [Bool.and_eq_true, Bool.not_eq_eq_eq_not, Bool.not_eq_eq_eq_not,
      Bool.not_true, List.isEmpty_eq_false, List.isEmpty_eq_false] at hcond
    obtain ⟨hcdne, hnone⟩ := hcond
    have hmix : mixedIn baseFiles := by
      constructor
      · obtain ⟨i, hi⟩ := List.exists_mem_of_ne_nil _ hcdne
        obtain ⟨⟨f0, hf0, hidx⟩, hpos⟩ := (cdIndicesOf_mem baseFiles i).1 hi
        exact ⟨f0, hf0, by omega⟩
      · obtain ⟨h0, hh0⟩ := List.exists_mem_of_ne_nil _ hnone
        rw [cdMapOf_get] at hh0
        have := List.mem_filter.1 hh0
        exact ⟨h0, this.1, by simpa using this.2⟩
    have hlow := lowestCdOf_isLowest baseFiles hcdne
    rcases List.mem_append.1 hc with hc1 | hc2
    · split at hc1
      · next hlen =>
        rcases List.mem_singleton.1 hc1 with rfl
        have hmem2 : ∀ f, f ∈ sortByQuality (mergedOf baseFiles) →
            f ∈ baseFiles ∧
              (f.cdIndex = lowestCdOf baseFiles ∨ f.cdIndex = 0) := by
          intro f hf
          rw [sortByQuality, jsSort_mem, mergedOf] at hf
          rcases List.mem_append.1 hf with hfl | hfr
          · rw [cdMapOf_get] at hfl
            have := List.mem_filter.1 hfl
            exact ⟨this.1, Or.inl (by simpa using this.2)⟩
          · rw [cdMapOf_get] at hfr
            have := List.mem_filter.1 hfr
            exact ⟨this.1, Or.inr (by simpa using this.2)⟩
        refine ⟨by simpa [sortByQuality, jsSort_length] using hlen,
          fun f hf => (hmem2 f hf).1, ?_⟩
        intro f g hf hg
        obtain ⟨-, hfi⟩ := hmem2 f hf
        obtain ⟨-, hgi⟩ := hmem2 g hg
        rcases hfi with hfi | hfi <;> rcases hgi with hgi | hgi
        · exact Or.inl (hfi.trans hgi.symm)
        · exact Or.inr ⟨hmix, Or.inr ⟨hgi, hfi ▸ hlow⟩⟩
        · exact Or.inr ⟨hmix, Or.inl ⟨hfi, hgi ▸ hlow⟩⟩
        · exact Or.inl (hfi.trans hgi.symm)
      · simp at hc1
    · obtain ⟨idx, hidxmem, hsome⟩ := List.mem_filterMap.1 hc2
      split at hsome
      · exact absurd hsome (by simp)
      · split at hsome
        · next hlen =>
          cases hsome
          have hmem2 : ∀ f,
              f ∈ sortByQuality (bucketGet (cdMapOf baseFiles) idx) →
              f ∈ baseFiles ∧ f.cdIndex = idx := by
            intro f hf
            rw [sortByQuality, jsSort_mem, cdMapOf_get] at hf
            have := List.mem_filter.1 hf
            exact ⟨this.1, by simpa using this.2⟩
          refine ⟨by simpa [sortByQuality, jsSort_length] using hlen,
            fun f hf => (hmem2 f hf).1, ?_⟩
          intro f g hf hg
          exact Or.inl (((hmem2 f hf).2).trans ((hmem2 g hg).2).symm)
        · exact absurd hsome (by simp)
  · obtain ⟨kv, hkvmem, hsome⟩ := List.mem_filterMap.1 hc
    split at hsome
    · next hlen =>
      cases hsome
      obtain ⟨hfil, -⟩ := mem_bucketBy_eq_filter _ _ _ _ hkvmem
      have hmem2 : ∀ f, f ∈ sortByQuality kv.2 →
          f ∈ baseFiles ∧ f.cdIndex = kv.1 := by
        intro f hf
        rw [sortByQuality, jsSort_mem, hfil] at hf
        have := List.mem_filter.1 hf
        exact ⟨this.1, by simpa using this.2⟩
      refine ⟨by simpa [sortByQuality, jsSort_length] using hlen,
        fun f hf => (hmem2 f hf).1, ?_⟩
      intro f g hf hg
      exact Or.inl (((hmem2 f hf).2).trans ((hmem2 g hg).2).symm)
    · exact absurd hsome (by simp)

/-- Completeness of one base-name group's clustering: two distinct
files that the part-index rule puts together land in a common reported
cluster. -/
theorem clustersOfBase_complete (baseFiles : List VideoFile)
    (f g : VideoFile) (hf : f ∈ baseFiles) (hg : g ∈ baseFiles)
    (hne : f ≠ g)
    (htog : f.cdIndex = g.cdIndex ∨
      (mixedIn baseFiles ∧
        ((f.cdIndex = 0 ∧ isLowestPosIn baseFiles g.cdIndex) ∨
          (g.cdIndex = 0 ∧ isLowestPosIn baseFiles f.cdIndex)))) :
    ∃ c ∈ clustersOfBase baseFiles, f ∈ c.files ∧ g ∈ c.files := by
  have hbucket : ∀ (h : VideoFile) i, h ∈ baseFiles → h.cdIndex = i →
      h ∈ bucketGet (cdMapOf baseFiles) i := by
    intro h i hh hi
    rw [cdMapOf_get]
    exact List.mem_filter.2 ⟨hh, by simp [hi]⟩
  have hbranch_of_mix : mixedIn baseFiles →
      (!(cdIndicesOf baseFiles).isEmpty
        && !(bucketGet (cdMapOf baseFiles) 0).isEmpty) = true := by
    rintro ⟨⟨fp, hfp, hfppos⟩, ⟨fz, hfz, hfz0⟩⟩
    simp only [Bool.and_eq_true, Bool.not_eq_eq_eq_not, Bool.not_true,
      List.isEmpty_eq_false]
    exact ⟨List.ne_nil_of_mem
        ((cdIndicesOf_mem baseFiles fp.cdIndex).2 ⟨⟨fp, hfp, rfl⟩, hfppos⟩),
      List.ne_nil_of_mem (hbucket fz 0 hfz hfz0)⟩
  -- the merged cluster exists and contains any two distinct
  -- zero-or-lowest files
  have hmerged : ∀ (hbr : (!(cdIndicesOf baseFiles).isEmpty
        && !(bucketGet (cdMapOf baseFiles) 0).isEmpty) = true),
      (f.cdIndex = lowestCdOf baseFiles ∨ f.cdIndex = 0) →
      (g.cdIndex = lowestCdOf baseFiles ∨ g.cdIndex = 0) →
      ∃ c ∈ clustersOfBase baseFiles, f ∈ c.files ∧ g ∈ c.files := by
    intro hbr hfi hgi
    have hfm : f ∈ mergedOf baseFiles := by
      rw [mergedOf]
      rcases hfi with h | h
      · exact List.mem_append_left _ (hbucket f _ hf h)
      · exact List.mem_append_right _ (hbucket f _ hf h)
    have hgm : g ∈ mergedOf baseFiles := by
      rw [mergedOf]
      rcases hgi with h | h
      · exact List.mem_append_left _ (hbucket g _ hg h)
      · exact List.mem_append_right _ (hbucket g _ hg h)
    have hlen : 1 < (mergedOf baseFiles).length :=
      one_lt_length_of_two_mem hfm hgm hne
    refine ⟨{ baseName := (baseFiles.headI).baseName,
              files := sortByQuality (mergedOf baseFiles) }, ?_, ?_, ?_⟩
    · simp only [clustersOfBase]
      rw [if_pos hbr]
      refine List.mem_append_left _ ?_
      rw [if_pos hlen]
      exact List.mem_singleton.2 rfl
    · show f ∈ sortByQuality (mergedOf baseFiles)
      rw [sortByQuality, jsSort_mem]; exact hfm
    · show g ∈ sortByQuality (mergedOf baseFiles)
      rw [sortByQuality, jsSort_mem]; exact hgm
  rcases htog with hidx | ⟨hmix, hcase⟩
  · -- equal part indices
    by_cases hbr : (!(cdIndicesOf baseFiles).isEmpty
        && !(bucketGet (cdMapOf baseFiles) 0).isEmpty) = true
    · by_cases h0 : f.cdIndex = 0
      · exact hmerged hbr (Or.inr h0) (Or.inr (hidx ▸ h0))
      · by_cases hl : f.cdIndex = lowestCdOf baseFiles
        · exact hmerged hbr (Or.inl hl) (Or.inl (hidx ▸ hl))
        · -- a separate positive-index cluster
          have hfm := hbucket f f.cdIndex hf rfl
          have hgm := hbucket g f.cdIndex hg hidx.symm
          have hlen : 1 < (bucketGet (cdMapOf baseFiles) f.cdIndex).length :=
            one_lt_length_of_two_mem hfm hgm hne
          have hidxmem : f.cdIndex ∈ cdIndicesOf baseFiles :=
            (cdIndicesOf_mem baseFiles f.cdIndex).2
              ⟨⟨f, hf, rfl⟩, by omega⟩
          refine ⟨{ baseName := (baseFiles.headI).baseName ++ "-cd"
                      ++ toString f.cdIndex,
                    files := sortByQuality
                      (bucketGet (cdMapOf baseFiles) f.cdIndex) }, ?_, ?_, ?_⟩
          · simp only [clustersOfBase]
            rw [if_pos hbr]
            refine List.mem_append_right _ ?_
            refine List.mem_filterMap.2 ⟨f.cdIndex, hidxmem, ?_⟩
            rw [if_neg hl, if_pos hlen]
          · show f ∈ sortByQuality _
            rw [sortByQuality, jsSort_mem]; exact hfm
          · show g ∈ sortByQuality _
            rw [sortByQuality, jsSort_mem]; exact hgm
    · -- no mixing: the plain per-index cluster
      have hfm := hbucket f f.cdIndex hf rfl
      have hgm := hbucket g f.cdIndex hg hidx.symm
      have hlen : 1 < (bucketGet (cdMapOf baseFiles) f.cdIndex).length :=
        one_lt_length_of_two_mem hfm hgm hne
      have hkv : (f.cdIndex, bucketGet (cdMapOf baseFiles) f.cdIndex)
          ∈ cdMapOf baseFiles :=
        bucketGet_mem _ _ (List.ne_nil_of_mem hfm)
      refine ⟨{ baseName := (baseFiles.headI).baseName ++
                  (if 0 < f.cdIndex then "-cd" ++ toString f.cdIndex else ""),
                files := sortByQuality
                  (bucketGet (cdMapOf baseFiles) f.cdIndex) }, ?_, ?_, ?_⟩
      · simp only [clustersOfBase]
        rw [if_neg hbr]
        exact List.mem_filterMap.2 ⟨_, hkv, by rw [if_pos hlen]⟩
      · show f ∈ sortByQuality _
        rw [sortByQuality, jsSort_mem]; exact hfm
      · show g ∈ sortByQuality _
        rw [sortByQuality, jsSort_mem]; exact hgm
  · -- the zero/lowest merge
    have hbr := hbranch_of_mix hmix
    have hcdne : cdIndicesOf baseFiles ≠ [] := by
      have := hbr
      simp only [Bool.and_eq_true, Bool.not_eq_eq_eq_not, Bool.not_true,
        List.isEmpty_eq_false] at this
      exact this.1
    have hlow := lowestCdOf_isLowest baseFiles hcdne
    rcases hcase with ⟨hf0, hglow⟩ | ⟨hg0, hflow⟩
    · exact hmerged hbr (Or.inr hf0)
        (Or.inl (isLowestPosIn_unique baseFiles _ _ hglow hlow))
    · exact hmerged hbr
        (Or.inl (isLowestPosIn_unique baseFiles _ _ hflow hlow))
        (Or.inr hg0)

/-! ## Claim C5 -/

/-- C5 (status: confirmed).  Duplicate clustering groups by
case-insensitive base name and sub-partitions by part index; in a mixed
base-name group the non-indexed files merge into the cluster of the
lowest positive index while every other positive index stays separate;
without mixing each part-index subgroup is independently a candidate;
and a cluster is reported only with more than one member.  Conjunct 1
(soundness): every reported cluster has `> 1` members, drawn from the
input, pairwise related by exactly that rule (`sameCluster`).
Conjunct 2 (completeness): any two distinct files the rule puts
together appear in a common reported cluster. -/
theorem c5_dup_clustering :
    (∀ (cmp : String → String → Ordering) (files : List VideoFile)
        (c : DuplicateGroup), c ∈ dupGroups cmp files →
      1 < c.files.length ∧ (∀ f ∈ c.files, f ∈ files) ∧
      (∀ f g, f ∈ c.files → g ∈ c.files → sameCluster files f g)) ∧
    (∀ (cmp : String → String → Ordering) (files : List VideoFile)
        (f g : VideoFile), f ∈ files → g ∈ files → f ≠ g →
      sameCluster files f g →
      ∃ c ∈ dupGroups cmp files, f ∈ c.files ∧ g ∈ c.files) := by
  constructor
  · intro cmp files c hc
    simp only [dupGroups, jsSort_mem] at hc
    obtain ⟨l, hl, hcl⟩ := List.mem_flatten.1 hc
    obtain ⟨⟨k, bf⟩, hkv, rfl⟩ := List.mem_map.1 hl
    obtain ⟨hfil, -⟩ := mem_bucketBy_eq_filter lowerBase files k bf hkv
    have hsound := clustersOfBase_sound bf c hcl
    have hmemf : ∀ f ∈ c.files, f ∈ files ∧ lowerBase f = k := by
      intro f hfc
      have := hsound.2.1 f hfc
      rw [hfil] at this
      have := List.mem_filter.1 this
      exact ⟨this.1, by simpa using this.2⟩
    refine ⟨hsound.1, fun f hfc => (hmemf f hfc).1, ?_⟩
    intro f g hfc hgc
    obtain ⟨hff, hfk⟩ := hmemf f hfc
    obtain ⟨hgf, hgk⟩ := hmemf g hgc
    refine ⟨hfk.trans hgk.symm, ?_⟩
    have := hsound.2.2 f g hfc hgc
    simp only [mixedBase, isLowestPos, hfk, ← hfil]
    exact this
  · intro cmp files f g hf hg hne ht
    obtain ⟨hlb, hcase⟩ := ht
    have hkv := mem_bucketBy_of_mem lowerBase files f hf
    have hfbf : f ∈ files.filter (fun y => lowerBase y = lowerBase f) :=
      List.mem_filter.2 ⟨hf, by simp⟩
    have hgbf : g ∈ files.filter (fun y => lowerBase y = lowerBase f) :=
      List.mem_filter.2 ⟨hg, by simp [hlb.symm]⟩
    simp only [mixedBase, isLowestPos] at hcase
    obtain ⟨c, hcmem, hfc, hgc⟩ := clustersOfBase_complete
      (files.filter (fun y => lowerBase y = lowerBase f)) f g hfbf hgbf hne
      hcase
    refine ⟨c, ?_, hfc, hgc⟩
    simp only [dupGroups, jsSort_mem]
    exact List.mem_flatten.2
      ⟨clustersOfBase (files.filter (fun y => lowerBase y = lowerBase f)),
        List.mem_map_of_mem _ hkv, hcmem⟩

/-- Witness for C5: two same-named single files in different directories
(the spec's own example) — the theorem's completeness conjunct puts them
into one reported cluster. -/
theorem c5_witness :
    ∃ c ∈ dupGroups (fun a b => compare a b)
      [{ path := "/d1/X.mkv", fileName := "X.mkv", dirPath := "/d1",
         size := 10, nfoPath := none, metadata := none, baseName := "X",
         cdIndex := 0 },
       { path := "/d2/X.mkv", fileName := "X.mkv", dirPath := "/d2",
         size := 20, nfoPath := none, metadata := none, baseName := "X",
         cdIndex := 0 }],
      ({ path := "/d1/X.mkv", fileName := "X.mkv", dirPath := "/d1",
         size := 10, nfoPath := none, metadata := none, baseName := "X",
         cdIndex := 0 } : VideoFile) ∈ c.files ∧
      ({ path := "/d2/X.mkv", fileName := "X.mkv", dirPath := "/d2",
         size := 20, nfoPath := none, metadata := none, baseName := "X",
         cdIndex := 0 } : VideoFile) ∈ c.files :=
  c5_dup_clustering.2 (fun a b => compare a b) _ _ _
    (by decide) (by decide) (by decide) ⟨rfl, Or.inl rfl⟩

/-! ## Claim C6 helpers -/

/-- Quality comparison kept by the lowres scan: `a` does not replace
`b` exactly when `a` is no better than `b` in the (resolution, size)
lexicographic order. -/
theorem lowres_not_replaces (a b : VideoFile) :
    replacesBest .lowres a b = false ↔
      (getResolution a < getResolution b ∨
        (getResolution a = getResolution b ∧ a.size ≤ b.size)) := by
  simp only [replacesBest, Bool.or_eq_false_iff, Bool.and_eq_false_iff,
    decide_eq_false_iff_not, not_lt, decide_eq_true_eq]
  constructor
  · intro ⟨h1, h2⟩
    rcases h2 with h2 | h2
    · omega
    · omega
  · intro h
    omega

theorem lowres_replaces (a b : VideoFile)
    (h : replacesBest .lowres a b = true) :
    getResolution b < getResolution a ∨
      (getResolution b = getResolution a ∧ b.size < a.size) := by
  simp only [replacesBest, Bool.or_eq_true, Bool.and_eq_true,
    decide_eq_true_eq] at h
  omega

/-- The lexicographic "no better than" order used by the keep choice. -/
def lowresLe (a b : VideoFile) : Prop :=
  getResolution a < getResolution b ∨
    (getResolution a = getResolution b ∧ a.size ≤ b.size)

theorem lowresLe_refl (a : VideoFile) : lowresLe a a :=
  Or.inr ⟨rfl, Nat.le_refl _⟩

theorem lowresLe_trans (a b c : VideoFile) (h1 : lowresLe a b)
    (h2 : lowresLe b c) : lowresLe a c := by
  simp only [lowresLe] at *
  omega

/-- The fold of the index scan lands on an index among the candidates. -/
theorem pickBest_fold_mem (files : List VideoFile) :
    ∀ (l : List Nat) (b : Nat),
      (l.foldl (fun best i =>
        if replacesBest .lowres (files.getD i default)
            (files.getD best default) then i else best) b) = b ∨
      (l.foldl (fun best i =>
        if replacesBest .lowres (files.getD i default)
            (files.getD best default) then i else best) b) ∈ l := by
  intro l
  induction l with
  | nil => intro b; exact Or.inl rfl
  | cons x l ih =>
    intro b
    simp only [List.foldl_cons]
    split
    · rcases ih x with h | h
      · exact Or.inr (by rw [h]; exact List.mem_cons_self _ _)
      · exact Or.inr (List.mem_cons_of_mem _ h)
    · rcases ih b with h | h
      · exact Or.inl h
      · exact Or.inr (List.mem_cons_of_mem _ h)

/-- The fold of the index scan picks a lexicographic maximum over the
start index and every scanned index. -/
theorem pickBest_fold_max (files : List VideoFile) :
    ∀ (l : List Nat) (b : Nat) (j : Nat), (j = b ∨ j ∈ l) →
      lowresLe (files.getD j default)
        (files.getD (l.foldl (fun best i =>
          if replacesBest .lowres (files.getD i default)
              (files.getD best default) then i else best) b) default) := by
  intro l
  induction l with
  | nil =>
    intro b j hj
    rcases hj with rfl | hj
    · exact lowresLe_refl _
    · simp at hj
  | cons x l ih =>
    intro b j hj
    simp only [List.foldl_cons]
    by_cases hr : replacesBest .lowres (files.getD x default)
        (files.getD b default) = true
    · rw [if_pos hr]
      rcases hj with heq | hj
      · -- the old best is strictly beaten by x, which the rest dominates
        rw [heq]
        refine lowresLe_trans _ (files.getD x default) _ ?_
          (ih x x (Or.inl rfl))
        rcases lowres_replaces _ _ hr with h | h
        · exact Or.inl h
        · exact Or.inr ⟨h.1, Nat.le_of_lt h.2⟩
      · rcases List.mem_cons.1 hj with heq | hj
        · rw [heq]
          exact ih x x (Or.inl rfl)
        · exact ih x j (Or.inr hj)
    · rw [if_neg hr]
      have hxb : lowresLe (files.getD x default) (files.getD b default) :=
        (lowres_not_replaces _ _).1 (by
          revert hr; cases replacesBest .lowres (files.getD x default)
            (files.getD b default) <;> simp)
      rcases hj with heq | hj
      · rw [heq]
        exact ih b b (Or.inl rfl)
      · rcases List.mem_cons.1 hj with heq | hj
        · rw [heq]
          exact lowresLe_trans _ (files.getD b default) _ hxb
            (ih b b (Or.inl rfl))
        · exact ih b j (Or.inr hj)

/-- The chosen index is in range for a non-empty list. -/
theorem pickBestIdx_lt (strategy : SelectStrategy) (files : List VideoFile)
    (h : files ≠ []) : pickBestIdx strategy files < files.length := by
  have hlen : 0 < files.length := List.length_pos.2 h
  rw [pickBestIdx]
  have hstep : ∀ (l : List Nat) (b : Nat), b < files.length →
      (∀ i ∈ l, i < files.length) →
      (l.foldl (fun best i =>
        if replacesBest strategy (files.getD i default)
            (files.getD best default) then i else best) b) < files.length := by
    intro l
    induction l with
    | nil => intro b hb _; exact hb
    | cons x l ih =>
      intro b hb hl
      simp only [List.foldl_cons]
      split
      · exact ih x (hl x (List.mem_cons_self _ _))
          (fun i hi => hl i (List.mem_cons_of_mem _ hi))
      · exact ih b hb (fun i hi => hl i (List.mem_cons_of_mem _ hi))
  refine hstep _ 0 hlen ?_
  intro i hi
  have := List.mem_range'_1.1 hi
  omega

/-- Maximality of the kept file under the prefer-higher-resolution
strategy. -/
theorem pickBestIdx_lowres_max (files : List VideoFile) (f : VideoFile)
    (hf : f ∈ files) :
    lowresLe f (files.getD (pickBestIdx .lowres files) default) := by
  obtain ⟨i, hi, hgi⟩ := List.mem_iff_getElem.1 hf
  have : files.getD i default = f := by
    rw [List.getD_eq_getElem files default hi, hgi]
  rw [← this]
  rw [pickBestIdx]
  refine pickBest_fold_max files _ 0 i ?_
  rcases Nat.eq_zero_or_pos i with rfl | hpos
  · exact Or.inl rfl
  · refine Or.inr (List.mem_range'_1.2 ⟨hpos, ?_⟩)
    omega

theorem setAdd_mem (s : List String) (x p : String) :
    p ∈ setAdd s x ↔ p ∈ s ∨ p = x := by
  simp only [setAdd]
  split
  · next hx =>
    constructor
    · exact Or.inl
    · rintro (h | rfl)
      · exact h
      · exact hx
  · simp

/-- Membership after folding a selection-extending step. -/
theorem foldl_sel_mem {A : Type} (F : List String → A → List String)
    (Q : A → String → Prop)
    (hF : ∀ sel a p, p ∈ F sel a ↔ p ∈ sel ∨ Q a p) :
    ∀ (l : List A) (sel : List String) (p : String),
      p ∈ l.foldl F sel ↔ p ∈ sel ∨ ∃ a ∈ l, Q a p := by
  intro l
  induction l with
  | nil => intro sel p; simp
  | cons x l ih =>
    intro sel p
    simp only [List.foldl_cons, ih, hF]
    constructor
    · rintro ((h | h) | ⟨a, ha, hq⟩)
      · exact Or.inl h
      · exact Or.inr ⟨x, List.mem_cons_self _ _, h⟩
      · exact Or.inr ⟨a, List.mem_cons_of_mem _ ha, hq⟩
    · rintro (h | ⟨a, ha, hq⟩)
      · exact Or.inl (Or.inl h)
      · rcases List.mem_cons.1 ha with rfl | ha
        · exact Or.inl (Or.inr hq)
        · exact Or.inr ⟨a, ha, hq⟩

/-- Exactly which paths `handleSmartSelect` selects. -/
theorem smartSelect_mem (strategy : SelectStrategy)
    (groups : List DuplicateGroup) (p : String) :
    p ∈ smartSelect strategy groups ↔
      ∃ g ∈ groups, ∃ i < g.files.length,
        i ≠ pickBestIdx strategy g.files ∧
        (g.files.getD i default).path = p := by
  have hinner : ∀ (g : DuplicateGroup) (sel : List String) (p : String),
      p ∈ (List.range g.files.length).foldl
        (fun sel2 i => if i ≠ pickBestIdx strategy g.files
          then setAdd sel2 ((g.files.getD i default).path) else sel2) sel ↔
      p ∈ sel ∨ ∃ i < g.files.length,
        i ≠ pickBestIdx strategy g.files ∧
        (g.files.getD i default).path = p := by
    intro g sel p
    rw [foldl_sel_mem _
      (fun i p => i ≠ pickBestIdx strategy g.files ∧
        (g.files.getD i default).path = p)]
    · constructor
      · rintro (h | ⟨i, hi, hq⟩)
        · exact Or.inl h
        · exact Or.inr ⟨i, List.mem_range.1 hi, hq⟩
      · rintro (h | ⟨i, hi, hq⟩)
        · exact Or.inl h
        · exact Or.inr ⟨i, List.mem_range.2 hi, hq⟩
    · intro sel2 i q
      split
      · next hne =>
        rw [setAdd_mem]
        constructor
        · rintro (h | rfl)
          · exact Or.inl h
          · exact Or.inr ⟨hne, rfl⟩
        · rintro (h | ⟨-, rfl⟩)
          · exact Or.inl h
          · exact Or.inr rfl
      · next hne =>
        push_neg at hne
        constructor
        · exact Or.inl
        · rintro (h | ⟨hne2, -⟩)
          · exact h
          · exact absurd hne hne2
  rw [smartSelect, foldl_sel_mem _
    (fun g p => ∃ i < g.files.length,
      i ≠ pickBestIdx strategy g.files ∧
      (g.files.getD i default).path = p)]
  · simp
  · intro sel g q
    exact hinner g sel q

/-! ## Claim C6 -/

/-- C6 (status: confirmed).  Under the prefer-higher-resolution
strategy the kept member of a cluster maximizes `width*height` with
ties broken by larger byte size (conjunct 1); the selected paths are
exactly those of the non-best positions of every cluster (conjunct 2);
and with all file paths distinct the selection is, per cluster, exactly
the cluster minus its single best member — the best member's path is
never selected and every other member's path is (conjunct 3). -/
theorem c6_smart_select_lowres :
    (∀ files : List VideoFile, files ≠ [] →
      files.getD (pickBestIdx .lowres files) default ∈ files ∧
      ∀ f ∈ files,
        getResolution f <
            getResolution (files.getD (pickBestIdx .lowres files) default) ∨
          (getResolution f =
              getResolution (files.getD (pickBestIdx .lowres files) default) ∧
            f.size ≤ (files.getD (pickBestIdx .lowres files) default).size)) ∧
    (∀ (groups : List DuplicateGroup) (p : String),
      p ∈ smartSelect .lowres groups ↔
        ∃ g ∈ groups, ∃ i < g.files.length,
          i ≠ pickBestIdx .lowres g.files ∧
          (g.files.getD i default).path = p) ∧
    (∀ groups : List DuplicateGroup,
      (∀ g1 ∈ groups, ∀ g2 ∈ groups, ∀ i < g1.files.length,
        ∀ j < g2.files.length,
        (g1.files.getD i default).path = (g2.files.getD j default).path →
        g1 = g2 ∧ i = j) →
      ∀ g ∈ groups, g.files ≠ [] →
        ((g.files.getD (pickBestIdx .lowres g.files) default).path
            ∉ smartSelect .lowres groups) ∧
        (∀ i < g.files.length, i ≠ pickBestIdx .lowres g.files →
          (g.files.getD i default).path ∈ smartSelect .lowres groups)) := by
  refine ⟨?_, smartSelect_mem .lowres, ?_⟩
  · intro files hne
    have hlt := pickBestIdx_lt .lowres files hne
    constructor
    · rw [List.getD_eq_getElem files default hlt]
      exact List.getElem_mem hlt
    · intro f hf
      exact pickBestIdx_lowres_max files f hf
  · intro groups hinj g hg hne
    have hbest := pickBestIdx_lt .lowres g.files hne
    constructor
    · intro hmem
      rw [smartSelect_mem] at hmem
      obtain ⟨g2, hg2, j, hj, hjne, hpath⟩ := hmem
      obtain ⟨hgeq, hieq⟩ := hinj g2 hg2 g hg j hj _ hbest hpath
      exact hjne (by rw [hieq, hgeq])
    · intro i hi hine
      rw [smartSelect_mem]
      exact ⟨g, hg, i, hi, hine, rfl⟩

/-- Witness for C6: a 720p and a 1080p copy — the theorem's conjunct 1
applied at the concrete two-element cluster names the kept member
(fields in order: path, fileName, dirPath, size, nfoPath, metadata,
baseName, cdIndex; metadata: codec, width, height, duration, bitrate,
frameRate, audioCodec, audioChannels). -/
theorem c6_witness :
    [(⟨"/d1/X.mkv", "X.mkv", "/d1", 100, none,
        some ⟨"h264", 1280, 720, 0, 0, "", "", 2⟩, "X", 0⟩ : VideoFile),
      ⟨"/d2/X.mkv", "X.mkv", "/d2", 50, none,
        some ⟨"h264", 1920, 1080, 0, 0, "", "", 2⟩, "X", 0⟩].getD
      (pickBestIdx .lowres
        [⟨"/d1/X.mkv", "X.mkv", "/d1", 100, none,
           some ⟨"h264", 1280, 720, 0, 0, "", "", 2⟩, "X", 0⟩,
         ⟨"/d2/X.mkv", "X.mkv", "/d2", 50, none,
           some ⟨"h264", 1920, 1080, 0, 0, "", "", 2⟩, "X", 0⟩]) default
      ∈ [(⟨"/d1/X.mkv", "X.mkv", "/d1", 100, none,
            some ⟨"h264", 1280, 720, 0, 0, "", "", 2⟩, "X", 0⟩ : VideoFile),
          ⟨"/d2/X.mkv", "X.mkv", "/d2", 50, none,
            some ⟨"h264", 1920, 1080, 0, 0, "", "", 2⟩, "X", 0⟩] :=
  (c6_smart_select_lowres.1 _ (by decide)).1

/-! ## Scanner basics (C3, C8, C10) -/

theorem cacheGet_cacheSet_same (c : DirCache) (dir : String)
    (e : DirCacheEntry) : cacheGet (cacheSet c dir e) dir = some e := by
  induction c with
  | nil => simp [cacheSet, cacheGet]
  | cons hd tl ih =>
    obtain ⟨p, e2⟩ := hd
    simp only [cacheSet]
    split
    · next hp => simp [cacheGet, hp]
    · next hp => simp [cacheGet, hp, ih]

theorem cacheGet_cacheSet_ne (c : DirCache) (dir : String)
    (e : DirCacheEntry) (q : String) (h : dir ≠ q) :
    cacheGet (cacheSet c dir e) q = cacheGet c q := by
  induction c with
  | nil => simp [cacheSet, cacheGet, h]
  | cons hd tl ih =>
    obtain ⟨p, e2⟩ := hd
    simp only [cacheSet]
    split
    · next hp => subst hp; simp [cacheGet, h]
    · next hp => simp only [cacheGet]; split <;> simp [ih]

theorem fsGet_mem (fs : Fs) (p : String) (node : DirNode)
    (h : fsGet fs p = some node) : (p, node) ∈ fs := by
  induction fs with
  | nil => simp [fsGet] at h
  | cons hd tl ih =>
    obtain ⟨q, n2⟩ := hd
    simp only [fsGet] at h
    split at h
    · next hq => cases h; exact hq ▸ List.mem_cons_self _ _
    · exact List.mem_cons_of_mem _ (ih h)

/-- Discharge `readdirOk` for a concrete filesystem by checking each
entry. -/
theorem readdirOk_intro (fs : Fs)
    (h : ∀ kv ∈ fs, (kv.2 : DirNode).entries.isSome = true) :
    readdirOk fs := by
  intro p node hget hnone
  have := h (p, node) (fsGet_mem fs p node hget)
  rw [hnone] at this
  simp at this

/-- The empty cache is accurate for every filesystem. -/
theorem accurate_nil (fs : Fs) : accurate fs [] := by
  intro dir e h
  simp [cacheGet] at h

/-- The empty cache stores only zero sizes, vacuously. -/
theorem cacheZero_nil : cacheZero [] := by
  intro p e h
  simp [cacheGet] at h

/-- The miss path with a failing `readdir`: the attempt is counted,
nothing else changes. -/
theorem scanDirectory_miss_readdir_fail (fs : Fs) (fuel : Nat)
    (dir : String) (s : ScanState) (node : DirNode)
    (hfs : fsGet fs dir = some node)
    (hmiss : ∀ e, cacheGet s.cache dir = some e →
      e.mtime ≠ node.mtimeMs)
    (hent : node.entries = none) :
    scanDirectory fs (fuel + 1) dir s =
      { s with timings :=
          { s.timings with readdirCount := s.timings.readdirCount + 1 } } := by
  simp only [scanDirectory, hfs, hent]
  cases hcg : cacheGet s.cache dir with
  | none => rfl
  | some e =>
    have := hmiss e hcg
    simp [this]

/-- The miss path with a successful listing: one `readdir`, the fresh
videos are emitted and cached together with the subdirectory list, and
the scan recurses into the subdirectories. -/
theorem scanDirectory_miss_list (fs : Fs) (fuel : Nat) (dir : String)
    (s : ScanState) (node : DirNode) (entries : List FsEntry)
    (hfs : fsGet fs dir = some node)
    (hmiss : ∀ e, cacheGet s.cache dir = some e →
      e.mtime ≠ node.mtimeMs)
    (hent : node.entries = some entries) :
    scanDirectory fs (fuel + 1) dir s =
      scanList fs fuel (subdirsOfListing dir entries)
        { timings :=
            { startTime := s.timings.startTime
              readdirCount := s.timings.readdirCount + 1
              cacheHits := s.timings.cacheHits
              videoCount := s.timings.videoCount
                + (filesOfListing dir entries).length
              dirCount := s.timings.dirCount
                + (subdirsOfListing dir entries).length }
          cache := cacheSet s.cache dir
            { mtime := node.mtimeMs
              videoFiles := filesOfListing dir entries
              subdirs := subdirsOfListing dir entries }
          emitted := s.emitted ++ filesOfListing dir entries } := by
  have hmain : (match node.entries with
      | none =>
        { s with timings :=
            { s.timings with readdirCount := s.timings.readdirCount + 1 } }
      | some entries =>
        let videoFiles := filesOfListing dir entries
        let subdirs := subdirsOfListing dir entries
        let s2 : ScanState :=
          { timings :=
              { startTime := s.timings.startTime
                readdirCount := s.timings.readdirCount + 1
                cacheHits := s.timings.cacheHits
                videoCount := s.timings.videoCount + videoFiles.length
                dirCount := s.timings.dirCount }
            cache := cacheSet s.cache dir
              { mtime := node.mtimeMs, videoFiles := videoFiles,
                subdirs := subdirs }
            emitted := s.emitted ++ videoFiles }
        if subdirs.isEmpty then s2
        else
          subdirs.foldl (fun st d => scanDirectory fs fuel d st)
            { s2 with
              timings :=
                { s2.timings with
                  dirCount := s2.timings.dirCount + subdirs.length } } :
      ScanState)
      = scanList fs fuel (subdirsOfListing dir entries)
        { timings :=
            { startTime := s.timings.startTime
              readdirCount := s.timings.readdirCount + 1
              cacheHits := s.timings.cacheHits
              videoCount := s.timings.videoCount
                + (filesOfListing dir entries).length
              dirCount := s.timings.dirCount
                + (subdirsOfListing dir entries).length }
          cache := cacheSet s.cache dir
            { mtime := node.mtimeMs
              videoFiles := filesOfListing dir entries
              subdirs := subdirsOfListing dir entries }
          emitted := s.emitted ++ filesOfListing dir entries } := by
    rw [hent]
    simp only []
    by_cases hsub : (subdirsOfListing dir entries).isEmpty
    · rw [if_pos hsub]
      rw [List.isEmpty_iff] at hsub
      rw [hsub]
      simp [scanList, List.length_nil]
    · rw [if_neg hsub]
      rfl
  simp only [scanDirectory, hfs]
  cases hcg : cacheGet s.cache dir with
  | none => exact hmain
  | some e =>
    have := hmiss e hcg
    simp only [if_neg this]
    exact hmain

/-- C8 conjunct 1: a stat failure leaves the scan state untouched. -/
theorem scanDirectory_stat_fail (fs : Fs) (fuel : Nat) (dir : String)
    (s : ScanState) (h : fsGet fs dir = none) :
    scanDirectory fs fuel dir s = s := by
  cases fuel with
  | zero => rfl
  | succ fuel => simp [scanDirectory, h]

/-- The hit path: a cached entry with matching mtime is replayed
without a `readdir`; the cached files are emitted, the counters bumped,
and the scan recurses into the cached subdirectory list. -/
theorem scanDirectory_hit (fs : Fs) (fuel : Nat) (dir : String)
    (s : ScanState) (node : DirNode) (cached : DirCacheEntry)
    (hfs : fsGet fs dir = some node)
    (hcg : cacheGet s.cache dir = some cached)
    (hmt : cached.mtime = node.mtimeMs) :
    scanDirectory fs (fuel + 1) dir s =
      scanList fs fuel cached.subdirs
        { timings :=
            { startTime := s.timings.startTime
              readdirCount := s.timings.readdirCount
              cacheHits := s.timings.cacheHits + 1
              videoCount := s.timings.videoCount + cached.videoFiles.length
              dirCount := s.timings.dirCount + cached.subdirs.length }
          cache := s.cache
          emitted := s.emitted ++ cached.videoFiles } := by
  simp only [scanDirectory, hfs, hcg, if_pos hmt]
  by_cases hsub : cached.subdirs.isEmpty
  · rw [if_pos hsub]
    rw [List.isEmpty_iff] at hsub
    rw [hsub]
    simp [scanList, List.length_nil]
  · rw [if_neg hsub]
    rfl

/-- Accuracy of the entry the miss path stores. -/
theorem accurate_cacheSet (fs : Fs) (c : DirCache) (dir : String)
    (node : DirNode) (entries : List FsEntry) (hacc : accurate fs c)
    (hfs : fsGet fs dir = some node) (hent : node.entries = some entries) :
    accurate fs (cacheSet c dir
      { mtime := node.mtimeMs, videoFiles := filesOfListing dir entries,
        subdirs := subdirsOfListing dir entries }) := by
  intro p e hp
  by_cases hdp : dir = p
  · subst hdp
    rw [cacheGet_cacheSet_same] at hp
    cases hp
    exact ⟨node, entries, hfs, hent, rfl, rfl, rfl⟩
  · rw [cacheGet_cacheSet_ne _ _ _ _ hdp] at hp
    exact hacc p e hp

/-- Core scan lemma: starting from an accurate cache, the scan keeps
the cache accurate and appends exactly the specified emission list. -/
theorem scan_emit_spec (fs : Fs) : ∀ fuel (dir : String) (s : ScanState),
    accurate fs s.cache →
    accurate fs (scanDirectory fs fuel dir s).cache ∧
    (scanDirectory fs fuel dir s).emitted
      = s.emitted ++ emitSpec fs fuel dir := by
  intro fuel
  induction fuel with
  | zero =>
    intro dir s hs
    exact ⟨hs, by simp [scanDirectory, emitSpec]⟩
  | succ fuel ih =>
    have ihList : ∀ (dirs : List String) (s : ScanState),
        accurate fs s.cache →
        accurate fs (scanList fs fuel dirs s).cache ∧
        (scanList fs fuel dirs s).emitted
          = s.emitted ++ (dirs.map (fun sub => emitSpec fs fuel sub)).flatten := by
      intro dirs
      induction dirs with
      | nil => intro s hs; exact ⟨hs, by simp [scanList]⟩
      | cons d ds ihd =>
        intro s hs
        have hstep : scanList fs fuel (d :: ds) s
            = scanList fs fuel ds (scanDirectory fs fuel d s) := by
          simp [scanList]
        obtain ⟨hacc1, hem1⟩ := ih d s hs
        obtain ⟨hacc2, hem2⟩ := ihd (scanDirectory fs fuel d s) hacc1
        rw [hstep]
        refine ⟨hacc2, ?_⟩
        rw [hem2, hem1]
        simp [List.append_assoc]
    intro dir s hs
    cases hfs : fsGet fs dir with
    | none =>
      rw [scanDirectory_stat_fail fs _ dir s hfs]
      exact ⟨hs, by simp [emitSpec, hfs]⟩
    | some node =>
      by_cases hhit : ∃ e, cacheGet s.cache dir = some e ∧
          e.mtime = node.mtimeMs
      · obtain ⟨e, hcg, hmt⟩ := hhit
        obtain ⟨node2, entries, hfs2, hent, hmtime, hvf, hsub⟩ :=
          hs dir e hcg
        rw [hfs] at hfs2
        cases hfs2
        rw [scanDirectory_hit fs fuel dir s node e hfs hcg hmt]
        obtain ⟨hacc2, hem2⟩ := ihList e.subdirs
          { timings :=
              { startTime := s.timings.startTime
                readdirCount := s.timings.readdirCount
                cacheHits := s.timings.cacheHits + 1
                videoCount := s.timings.videoCount + e.videoFiles.length
                dirCount := s.timings.dirCount + e.subdirs.length }
            cache := s.cache
            emitted := s.emitted ++ e.videoFiles } hs
        refine ⟨hacc2, ?_⟩
        rw [hem2]
        simp only [emitSpec, hfs, hent, hvf, hsub, List.append_assoc]
      · have hmiss : ∀ e, cacheGet s.cache dir = some e →
            e.mtime ≠ node.mtimeMs := by
          intro e hcg heq
          exact hhit ⟨e, hcg, heq⟩
        cases hent : node.entries with
        | none =>
          rw [scanDirectory_miss_readdir_fail fs fuel dir s node hfs hmiss
            hent]
          exact ⟨hs, by simp [emitSpec, hfs, hent]⟩
        | some entries =>
          rw [scanDirectory_miss_list fs fuel dir s node entries hfs hmiss
            hent]
          have hacc1 := accurate_cacheSet fs s.cache dir node entries hs hfs
            hent
          obtain ⟨hacc2, hem2⟩ := ihList (subdirsOfListing dir entries)
            { timings :=
                { startTime := s.timings.startTime
                  readdirCount := s.timings.readdirCount + 1
                  cacheHits := s.timings.cacheHits
                  videoCount := s.timings.videoCount
                    + (filesOfListing dir entries).length
                  dirCount := s.timings.dirCount
                    + (subdirsOfListing dir entries).length }
              cache := cacheSet s.cache dir
                { mtime := node.mtimeMs
                  videoFiles := filesOfListing dir entries
                  subdirs := subdirsOfListing dir entries }
              emitted := s.emitted ++ filesOfListing dir entries } hacc1
          refine ⟨hacc2, ?_⟩
          rw [hem2]
          simp only [emitSpec, hfs, hent, List.append_assoc]

/-- Accuracy preservation lifted to directory lists. -/
theorem scanList_accurate (fs : Fs) (fuel : Nat) :
    ∀ (dirs : List String) (s : ScanState), accurate fs s.cache →
      accurate fs (scanList fs fuel dirs s).cache := by
  intro dirs
  induction dirs with
  | nil => intro s h; exact h
  | cons d ds ihd =>
    intro s h
    have hstep : scanList fs fuel (d :: ds) s
        = scanList fs fuel ds (scanDirectory fs fuel d s) := by
      simp [scanList]
    rw [hstep]
    exact ihd _ ((scan_emit_spec fs fuel d s h).1)

/-- A scan never drops a cache entry: every cached directory stays
cached (possibly refreshed). -/
theorem scan_cache_mono (fs : Fs) : ∀ fuel (dir : String) (s : ScanState)
    (p : String) (e : DirCacheEntry), cacheGet s.cache p = some e →
    ∃ e2, cacheGet (scanDirectory fs fuel dir s).cache p = some e2 := by
  intro fuel
  induction fuel with
  | zero => intro dir s p e h; exact ⟨e, h⟩
  | succ fuel ih =>
    have ihList : ∀ (dirs : List String) (s : ScanState) (p : String)
        (e : DirCacheEntry), cacheGet s.cache p = some e →
        ∃ e2, cacheGet (scanList fs fuel dirs s).cache p = some e2 := by
      intro dirs
      induction dirs with
      | nil => intro s p e h; exact ⟨e, h⟩
      | cons d ds ihd =>
        intro s p e h
        obtain ⟨e1, h1⟩ := ih d s p e h
        have hstep : scanList fs fuel (d :: ds) s
            = scanList fs fuel ds (scanDirectory fs fuel d s) := by
          simp [scanList]
        rw [hstep]
        exact ihd _ p e1 h1
    intro dir s p e h
    cases hfs : fsGet fs dir with
    | none => rw [scanDirectory_stat_fail fs _ dir s hfs]; exact ⟨e, h⟩
    | some node =>
      by_cases hhit : ∃ c, cacheGet s.cache dir = some c ∧
          c.mtime = node.mtimeMs
      · obtain ⟨c, hcg, hmt⟩ := hhit
        rw [scanDirectory_hit fs fuel dir s node c hfs hcg hmt]
        exact ihList c.subdirs _ p e h
      · have hmiss : ∀ c, cacheGet s.cache dir = some c →
            c.mtime ≠ node.mtimeMs := fun c h1 h2 => hhit ⟨c, h1, h2⟩
        cases hent : node.entries with
        | none =>
          rw [scanDirectory_miss_readdir_fail fs fuel dir s node hfs hmiss
            hent]
          exact ⟨e, h⟩
        | some entries =>
          rw [scanDirectory_miss_list fs fuel dir s node entries hfs hmiss
            hent]
          by_cases hdp : dir = p
          · subst hdp
            exact ihList _ _ dir _ (cacheGet_cacheSet_same s.cache dir _)
          · have h2 : cacheGet (cacheSet s.cache dir
                { mtime := node.mtimeMs
                  videoFiles := filesOfListing dir entries
                  subdirs := subdirsOfListing dir entries }) p = some e := by
              rw [cacheGet_cacheSet_ne _ _ _ _ hdp]; exact h
            exact ihList _ _ p e h2

/-- `scan_cache_mono` lifted to directory lists. -/
theorem scanList_cache_mono (fs : Fs) (fuel : Nat) :
    ∀ (dirs : List String) (s : ScanState) (p : String) (e : DirCacheEntry),
      cacheGet s.cache p = some e →
      ∃ e2, cacheGet (scanList fs fuel dirs s).cache p = some e2 := by
  intro dirs
  induction dirs with
  | nil => intro s p e h; exact ⟨e, h⟩
  | cons d ds ihd =>
    intro s p e h
    obtain ⟨e1, h1⟩ := scan_cache_mono fs fuel d s p e h
    have hstep : scanList fs fuel (d :: ds) s
        = scanList fs fuel ds (scanDirectory fs fuel d s) := by
      simp [scanList]
    rw [hstep]
    exact ihd _ p e1 h1

/-- Coverage survives any cache-domain growth. -/
theorem covered_mono (fs : Fs) : ∀ fuel (dir : String) (c c2 : DirCache),
    (∀ p e, cacheGet c p = some e → ∃ e2, cacheGet c2 p = some e2) →
    covered fs fuel dir c → covered fs fuel dir c2 := by
  intro fuel
  induction fuel with
  | zero => intro dir c c2 _ _; trivial
  | succ fuel ih =>
    intro dir c c2 hmono hcov node hfs
    obtain ⟨⟨e, he⟩, hsubs⟩ := hcov node hfs
    refine ⟨hmono dir e he, ?_⟩
    intro entries hent sub hsub
    exact ih sub c c2 hmono (hsubs entries hent sub hsub)

/-- After a scan from an accurate cache (with `readdir` not throwing),
the cache covers the whole fuel-bounded tree of the scanned root. -/
theorem scan_covers (fs : Fs) (hok : readdirOk fs) :
    ∀ fuel (dir : String) (s : ScanState), accurate fs s.cache →
      covered fs fuel dir (scanDirectory fs fuel dir s).cache := by
  intro fuel
  induction fuel with
  | zero => intro dir s _; trivial
  | succ fuel ih =>
    have ihList : ∀ (dirs : List String) (s : ScanState),
        accurate fs s.cache →
        ∀ d ∈ dirs, covered fs fuel d (scanList fs fuel dirs s).cache := by
      intro dirs
      induction dirs with
      | nil => intro s _ d hd; cases hd
      | cons d0 ds ihd =>
        intro s hs d hd
        have hstep : scanList fs fuel (d0 :: ds) s
            = scanList fs fuel ds (scanDirectory fs fuel d0 s) := by
          simp [scanList]
        rw [hstep]
        rcases List.mem_cons.1 hd with rfl | hd2
        · exact covered_mono fs fuel d _ _
            (fun p e he => scanList_cache_mono fs fuel ds _ p e he)
            (ih d s hs)
        · exact ihd _ ((scan_emit_spec fs fuel d0 s hs).1) d hd2
    intro dir s hs
    cases hfs : fsGet fs dir with
    | none =>
      intro node hnode
      rw [hfs] at hnode
      cases hnode
    | some node =>
      by_cases hhit : ∃ c, cacheGet s.cache dir = some c ∧
          c.mtime = node.mtimeMs
      · obtain ⟨c, hcg, hmt⟩ := hhit
        obtain ⟨node2, entries2, hfs2, hent2, _, _, hsub2⟩ := hs dir c hcg
        rw [hfs] at hfs2
        cases hfs2
        rw [scanDirectory_hit fs fuel dir s node c hfs hcg hmt]
        intro node3 hfs3
        rw [hfs] at hfs3
        cases hfs3
        constructor
        · exact scanList_cache_mono fs fuel c.subdirs _ dir c hcg
        · intro entries hent sub hsub
          rw [hent2] at hent
          cases hent
          rw [← hsub2] at hsub
          exact ihList c.subdirs
            { timings :=
                { startTime := s.timings.startTime
                  readdirCount := s.timings.readdirCount
                  cacheHits := s.timings.cacheHits + 1
                  videoCount := s.timings.videoCount + c.videoFiles.length
                  dirCount := s.timings.dirCount + c.subdirs.length }
              cache := s.cache
              emitted := s.emitted ++ c.videoFiles } hs sub hsub
      · have hmiss : ∀ c, cacheGet s.cache dir = some c →
            c.mtime ≠ node.mtimeMs := fun c h1 h2 => hhit ⟨c, h1, h2⟩
        cases hent : node.entries with
        | none => exact absurd hent (hok dir node hfs)
        | some entries =>
          rw [scanDirectory_miss_list fs fuel dir s node entries hfs hmiss
            hent]
          intro node3 hfs3
          rw [hfs] at hfs3
          cases hfs3
          constructor
          · exact scanList_cache_mono fs fuel _ _ dir _
              (cacheGet_cacheSet_same s.cache dir _)
          · intro entries2 hent2 sub hsub
            rw [hent] at hent2
            cases hent2
            exact ihList (subdirsOfListing dir entries) _
              (accurate_cacheSet fs s.cache dir node entries hs hfs hent)
              sub hsub

/-- Second-scan fixpoint: once the cache is accurate and covers the
tree, a rescan changes no cache entry, performs no `readdir`, and
emits exactly the specification list again. -/
theorem scan_covered_fix (fs : Fs) : ∀ fuel (dir : String) (s : ScanState),
    accurate fs s.cache → covered fs fuel dir s.cache →
    (scanDirectory fs fuel dir s).cache = s.cache ∧
    (scanDirectory fs fuel dir s).timings.readdirCount
      = s.timings.readdirCount ∧
    (scanDirectory fs fuel dir s).emitted
      = s.emitted ++ emitSpec fs fuel dir := by
  intro fuel
  induction fuel with
  | zero =>
    intro dir s _ _
    exact ⟨rfl, rfl, by simp [scanDirectory, emitSpec]⟩
  | succ fuel ih =>
    have ihList : ∀ (dirs : List String) (s : ScanState),
        accurate fs s.cache → (∀ d ∈ dirs, covered fs fuel d s.cache) →
        (scanList fs fuel dirs s).cache = s.cache ∧
        (scanList fs fuel dirs s).timings.readdirCount
          = s.timings.readdirCount ∧
        (scanList fs fuel dirs s).emitted
          = s.emitted ++ (dirs.map (fun d => emitSpec fs fuel d)).flatten := by
      intro dirs
      induction dirs with
      | nil => intro s _ _; exact ⟨rfl, rfl, by simp [scanList]⟩
      | cons d0 ds ihd =>
        intro s hs hcov
        have hstep : scanList fs fuel (d0 :: ds) s
            = scanList fs fuel ds (scanDirectory fs fuel d0 s) := by
          simp [scanList]
        obtain ⟨hc1, hr1, he1⟩ := ih d0 s hs
          (hcov d0 (List.mem_cons_self d0 ds))
        obtain ⟨hc2, hr2, he2⟩ := ihd (scanDirectory fs fuel d0 s)
          (by rw [hc1]; exact hs)
          (by intro d hd; rw [hc1]; exact hcov d (List.mem_cons_of_mem _ hd))
        rw [hstep]
        refine ⟨by rw [hc2, hc1], by rw [hr2, hr1], ?_⟩
        rw [he2, he1]
        simp [List.append_assoc]
    intro dir s hs hcov
    cases hfs : fsGet fs dir with
    | none =>
      rw [scanDirectory_stat_fail fs _ dir s hfs]
      exact ⟨rfl, rfl, by simp [emitSpec, hfs]⟩
    | some node =>
      obtain ⟨⟨c, hcg⟩, hsubcov⟩ := hcov node hfs
      obtain ⟨node2, entries, hfs2, hent, hmt, hvf, hsubd⟩ := hs dir c hcg
      rw [hfs] at hfs2
      cases hfs2
      rw [scanDirectory_hit fs fuel dir s node c hfs hcg hmt]
      obtain ⟨hc2, hr2, he2⟩ := ihList c.subdirs
        { timings :=
            { startTime := s.timings.startTime
              readdirCount := s.timings.readdirCount
              cacheHits := s.timings.cacheHits + 1
              videoCount := s.timings.videoCount + c.videoFiles.length
              dirCount := s.timings.dirCount + c.subdirs.length }
          cache := s.cache
          emitted := s.emitted ++ c.videoFiles } hs
        (by intro d hd; rw [hsubd] at hd; exact hsubcov entries hent d hd)
      refine ⟨hc2, hr2, ?_⟩
      rw [he2]
      simp only [emitSpec, hfs, hent, hvf, hsubd, List.append_assoc]

/-- Every file record a listing produces carries size `0` (the scanner
constructs them with `size: 0`). -/
theorem filesOfListing_size_zero (dir : String) (entries : List FsEntry) :
    ∀ f ∈ filesOfListing dir entries, f.size = 0 := by
  intro f hf
  simp only [filesOfListing, List.mem_map] at hf
  obtain ⟨e, _, rfl⟩ := hf
  rfl

/-- `cacheZero` is preserved by storing an all-zero-size entry. -/
theorem cacheZero_cacheSet (c : DirCache) (dir : String) (e : DirCacheEntry)
    (hc : cacheZero c) (he : ∀ f ∈ e.videoFiles, f.size = 0) :
    cacheZero (cacheSet c dir e) := by
  intro p e2 hp
  by_cases hdp : dir = p
  · subst hdp
    rw [cacheGet_cacheSet_same] at hp
    cases hp
    exact he
  · rw [cacheGet_cacheSet_ne _ _ _ _ hdp] at hp
    exact hc p e2 hp

/-- The scanner's zero-size invariant: starting from an all-zero cache
and all-zero emissions, both stay all-zero across a scan (hit replays
and fresh listings alike). -/
theorem scan_size_zero (fs : Fs) : ∀ fuel (dir : String) (s : ScanState),
    cacheZero s.cache → (∀ f ∈ s.emitted, f.size = 0) →
    cacheZero (scanDirectory fs fuel dir s).cache ∧
    ∀ f ∈ (scanDirectory fs fuel dir s).emitted, f.size = 0 := by
  intro fuel
  induction fuel with
  | zero => intro dir s hc he; exact ⟨hc, he⟩
  | succ fuel ih =>
    have ihList : ∀ (dirs : List String) (s : ScanState),
        cacheZero s.cache → (∀ f ∈ s.emitted, f.size = 0) →
        cacheZero (scanList fs fuel dirs s).cache ∧
        ∀ f ∈ (scanList fs fuel dirs s).emitted, f.size = 0 := by
      intro dirs
      induction dirs with
      | nil => intro s hc he; exact ⟨hc, he⟩
      | cons d ds ihd =>
        intro s hc he
        have hstep : scanList fs fuel (d :: ds) s
            = scanList fs fuel ds (scanDirectory fs fuel d s) := by
          simp [scanList]
        rw [hstep]
        obtain ⟨hc1, he1⟩ := ih d s hc he
        exact ihd _ hc1 he1
    intro dir s hc he
    cases hfs : fsGet fs dir with
    | none => rw [scanDirectory_stat_fail fs _ dir s hfs]; exact ⟨hc, he⟩
    | some node =>
      by_cases hhit : ∃ c, cacheGet s.cache dir = some c ∧
          c.mtime = node.mtimeMs
      · obtain ⟨c, hcg, hmt⟩ := hhit
        rw [scanDirectory_hit fs fuel dir s node c hfs hcg hmt]
        apply ihList
        · exact hc
        · intro f hf
          rcases List.mem_append.1 hf with hf | hf
          · exact he f hf
          · exact hc dir c hcg f hf
      · have hmiss : ∀ c, cacheGet s.cache dir = some c →
            c.mtime ≠ node.mtimeMs := fun c h1 h2 => hhit ⟨c, h1, h2⟩
        cases hent : node.entries with
        | none =>
          rw [scanDirectory_miss_readdir_fail fs fuel dir s node hfs hmiss
            hent]
          exact ⟨hc, he⟩
        | some entries =>
          rw [scanDirectory_miss_list fs fuel dir s node entries hfs hmiss
            hent]
          apply ihList
          · exact cacheZero_cacheSet s.cache dir _ hc
              (filesOfListing_size_zero dir entries)
          · intro f hf
            rcases List.mem_append.1 hf with hf | hf
            · exact he f hf
            · exact filesOfListing_size_zero dir entries f hf

/-- `getFileSizes` in closed form: stat every path, keep the
successful ones in order — the batching into groups of 40 is
invisible in the result, and a failing stat drops only its own path. -/
theorem getFileSizes_eq (statSize : String → Option Nat) :
    ∀ paths : List String,
      getFileSizes statSize paths
        = paths.filterMap (fun p => (statSize p).map (fun sz => (p, sz))) := by
  have key : ∀ (n : Nat) (paths : List String), paths.length ≤ n →
      getFileSizes statSize paths
        = paths.filterMap (fun p => (statSize p).map (fun sz => (p, sz))) := by
    intro n
    induction n with
    | zero =>
      intro paths h
      have hnil : paths = [] := List.length_eq_zero.1 (Nat.le_zero.1 h)
      subst hnil
      simp [getFileSizes]
    | succ n ihn =>
      intro paths h
      cases paths with
      | nil => simp [getFileSizes]
      | cons p0 rest =>
        have heq : getFileSizes statSize (p0 :: rest)
            = (((p0 :: rest).take 40).map
                (fun p => (statSize p).map (fun sz => (p, sz)))).reduceOption
              ++ getFileSizes statSize ((p0 :: rest).drop 40) := by
          simp [getFileSizes]
        have hlen : ((p0 :: rest).drop 40).length ≤ n := by
          simp only [List.length_drop, List.length_cons]
          simp only [List.length_cons] at h
          omega
        rw [heq, ihn _ hlen]
        have hro : (((p0 :: rest).take 40).map
            (fun p => (statSize p).map (fun sz => (p, sz)))).reduceOption
            = ((p0 :: rest).take 40).filterMap
                (fun p => (statSize p).map (fun sz => (p, sz))) := by
          show (((p0 :: rest).take 40).map
              (fun p => (statSize p).map (fun sz => (p, sz)))).filterMap id
            = ((p0 :: rest).take 40).filterMap
                (fun p => (statSize p).map (fun sz => (p, sz)))
          rw [List.filterMap_map]
          rfl
        rw [hro, ← List.filterMap_append, List.take_append_drop]
  intro paths
  exact key paths.length paths (le_refl _)

/-- Removing a dead directory (failing `stat`) from a scan list does
not change the scan at all: the siblings before and after it are
processed identically. -/
theorem scanList_skip (fs : Fs) (fuel : Nat) (xs ys : List String)
    (bad : String) (s : ScanState) (hbad : fsGet fs bad = none) :
    scanList fs fuel (xs ++ bad :: ys) s = scanList fs fuel (xs ++ ys) s := by
  simp only [scanList, List.foldl_append, List.foldl_cons]
  rw [scanDirectory_stat_fail fs fuel bad _ hbad]

/-- The same at the root level: `scanDirectories` with a root whose
resolved path cannot be stat-ed equals the run without that root. -/
theorem scanDirectories_skip (env : SysEnv) (fs : Fs) (fuel : Nat)
    (xs ys : List String) (bad : String) (cache : DirCache)
    (hbad : fsGet fs (resolveUncPath env bad) = none) :
    scanDirectories env fs fuel (xs ++ bad :: ys) cache
      = scanDirectories env fs fuel (xs ++ ys) cache := by
  simp only [scanDirectories, List.map_append, List.map_cons]
  rw [scanList_skip fs fuel (xs.map (resolveUncPath env))
    (ys.map (resolveUncPath env)) _ _ hbad]

/-- C3: on a matching timestamp `scanDirectory` takes the hit path: no
`readdir` for that directory, the cached video files are replayed to
`onFound`, and the scan recurses into the stored subdirectory list
(conjunct 1, a closed form of the hit branch).  Consequently a second
scan of the same unmodified tree over the cache the first scan built
performs zero listing operations, emits the same file list as the
first scan, and leaves the cache untouched (conjunct 2), for any
accurate starting cache (e.g. the empty one) and a filesystem whose
readable directories list successfully. -/
theorem c3_cache_hit_and_second_scan :
    (∀ (fs : Fs) (fuel : Nat) (dir : String) (s : ScanState)
        (node : DirNode) (cached : DirCacheEntry),
      fsGet fs dir = some node →
      cacheGet s.cache dir = some cached →
      cached.mtime = node.mtimeMs →
      scanDirectory fs (fuel + 1) dir s =
        scanList fs fuel cached.subdirs
          { timings :=
              { startTime := s.timings.startTime
                readdirCount := s.timings.readdirCount
                cacheHits := s.timings.cacheHits + 1
                videoCount := s.timings.videoCount
                  + cached.videoFiles.length
                dirCount := s.timings.dirCount + cached.subdirs.length }
            cache := s.cache
            emitted := s.emitted ++ cached.videoFiles }) ∧
    (∀ (fs : Fs) (fuel : Nat) (dir : String) (t0 t1 : ScanTimings)
        (c0 : DirCache),
      readdirOk fs → accurate fs c0 →
      (scanDirectory fs fuel dir
          { timings := t1
            cache := (scanDirectory fs fuel dir
              { timings := t0, cache := c0, emitted := [] }).cache
            emitted := [] }).timings.readdirCount = t1.readdirCount ∧
      (scanDirectory fs fuel dir
          { timings := t1
            cache := (scanDirectory fs fuel dir
              { timings := t0, cache := c0, emitted := [] }).cache
            emitted := [] }).emitted
        = (scanDirectory fs fuel dir
            { timings := t0, cache := c0, emitted := [] }).emitted ∧
      (scanDirectory fs fuel dir
          { timings := t1
            cache := (scanDirectory fs fuel dir
              { timings := t0, cache := c0, emitted := [] }).cache
            emitted := [] }).cache
        = (scanDirectory fs fuel dir
            { timings := t0, cache := c0, emitted := [] }).cache) := by
  constructor
  · intro fs fuel dir s node cached hfs hcg hmt
    exact scanDirectory_hit fs fuel dir s node cached hfs hcg hmt
  · intro fs fuel dir t0 t1 c0 hok hacc
    have h1 := scan_emit_spec fs fuel dir
      { timings := t0, cache := c0, emitted := [] } hacc
    have hcov := scan_covers fs hok fuel dir
      { timings := t0, cache := c0, emitted := [] } hacc
    have h2 := scan_covered_fix fs fuel dir
      { timings := t1
        cache := (scanDirectory fs fuel dir
          { timings := t0, cache := c0, emitted := [] }).cache
        emitted := [] } h1.1 hcov
    refine ⟨h2.2.1, ?_, h2.1⟩
    rw [h2.2.2, h1.2]

/-- Witness for C3: a one-directory filesystem with a single video;
the second scan over the first scan's cache does no `readdir`, emits
what the first scan emitted, and keeps the cache. -/
theorem c3_witness :
    (scanDirectory [("/r", ⟨5, some [⟨"M.mkv", false⟩]⟩)] 1 "/r"
        { timings := ⟨0, 0, 0, 0, 0⟩
          cache := (scanDirectory [("/r", ⟨5, some [⟨"M.mkv", false⟩]⟩)] 1
            "/r" { timings := ⟨0, 0, 0, 0, 0⟩, cache := [],
                   emitted := [] }).cache
          emitted := [] }).timings.readdirCount
      = (⟨0, 0, 0, 0, 0⟩ : ScanTimings).readdirCount ∧
    (scanDirectory [("/r", ⟨5, some [⟨"M.mkv", false⟩]⟩)] 1 "/r"
        { timings := ⟨0, 0, 0, 0, 0⟩
          cache := (scanDirectory [("/r", ⟨5, some [⟨"M.mkv", false⟩]⟩)] 1
            "/r" { timings := ⟨0, 0, 0, 0, 0⟩, cache := [],
                   emitted := [] }).cache
          emitted := [] }).emitted
      = (scanDirectory [("/r", ⟨5, some [⟨"M.mkv", false⟩]⟩)] 1 "/r"
          { timings := ⟨0, 0, 0, 0, 0⟩, cache := [],
            emitted := [] }).emitted ∧
    (scanDirectory [("/r", ⟨5, some [⟨"M.mkv", false⟩]⟩)] 1 "/r"
        { timings := ⟨0, 0, 0, 0, 0⟩
          cache := (scanDirectory [("/r", ⟨5, some [⟨"M.mkv", false⟩]⟩)] 1
            "/r" { timings := ⟨0, 0, 0, 0, 0⟩, cache := [],
                   emitted := [] }).cache
          emitted := [] }).cache
      = (scanDirectory [("/r", ⟨5, some [⟨"M.mkv", false⟩]⟩)] 1 "/r"
          { timings := ⟨0, 0, 0, 0, 0⟩, cache := [],
            emitted := [] }).cache :=
  c3_cache_hit_and_second_scan.2 [("/r", ⟨5, some [⟨"M.mkv", false⟩]⟩)] 1
    "/r" ⟨0, 0, 0, 0, 0⟩ ⟨0, 0, 0, 0, 0⟩ []
    (readdirOk_intro _ (by decide)) (accurate_nil _)

/-- C8: per-directory I/O failures are contained.  A failing `stat`
leaves the scan state exactly as it was (conjunct 1); a failing
`readdir` only counts the attempt, emitting nothing and touching no
cache entry (conjunct 2); a dead directory in a sibling list changes
nothing about the processing of the other siblings (conjunct 3); and
`scanDirectories` over roots containing an unreadable one equals the
run without it — it completes normally, never failing as a whole
(conjunct 4). -/
theorem c8_io_error_containment :
    (∀ (fs : Fs) (fuel : Nat) (dir : String) (s : ScanState),
      fsGet fs dir = none → scanDirectory fs fuel dir s = s) ∧
    (∀ (fs : Fs) (fuel : Nat) (dir : String) (s : ScanState)
        (node : DirNode),
      fsGet fs dir = some node →
      (∀ e, cacheGet s.cache dir = some e → e.mtime ≠ node.mtimeMs) →
      node.entries = none →
      scanDirectory fs (fuel + 1) dir s =
        { s with timings :=
            { s.timings with
              readdirCount := s.timings.readdirCount + 1 } }) ∧
    (∀ (fs : Fs) (fuel : Nat) (xs ys : List String) (bad : String)
        (s : ScanState),
      fsGet fs bad = none →
      scanList fs fuel (xs ++ bad :: ys) s = scanList fs fuel (xs ++ ys) s) ∧
    (∀ (env : SysEnv) (fs : Fs) (fuel : Nat) (xs ys : List String)
        (bad : String) (cache : DirCache),
      fsGet fs (resolveUncPath env bad) = none →
      scanDirectories env fs fuel (xs ++ bad :: ys) cache
        = scanDirectories env fs fuel (xs ++ ys) cache) :=
  ⟨fun fs fuel dir s h => scanDirectory_stat_fail fs fuel dir s h,
   fun fs fuel dir s node h1 h2 h3 =>
     scanDirectory_miss_readdir_fail fs fuel dir s node h1 h2 h3,
   fun fs fuel xs ys bad s h => scanList_skip fs fuel xs ys bad s h,
   fun env fs fuel xs ys bad cache h =>
     scanDirectories_skip env fs fuel xs ys bad cache h⟩

/-- Witness for C8: with one good root and one root that cannot be
stat-ed, the full scan equals the scan of the good root alone. -/
theorem c8_witness :
    scanDirectories ⟨false, []⟩ [("/r", ⟨5, some [⟨"M.mkv", false⟩]⟩)] 1
        (["/r"] ++ "/bad" :: []) []
      = scanDirectories ⟨false, []⟩ [("/r", ⟨5, some [⟨"M.mkv", false⟩]⟩)] 1
        (["/r"] ++ []) [] :=
  c8_io_error_containment.2.2.2 ⟨false, []⟩
    [("/r", ⟨5, some [⟨"M.mkv", false⟩]⟩)] 1 ["/r"] [] "/bad" [] (by decide)

/-- C10: every video file the cache-based scanner emits — on misses
and on hit replays over any cache the scanner itself could have
produced (all-zero sizes) — carries size `0` (conjunct 1); byte sizes
come only from the separate `getFileSizes` batch pass, which stats
each path and silently drops exactly the paths whose stat fails,
never failing the whole batch (conjunct 2, a closed form with the
40-element batching invisible in the result). -/
theorem c10_sizes_zero_and_batch_stat :
    (∀ (fs : Fs) (fuel : Nat) (dir : String) (s : ScanState),
      cacheZero s.cache → (∀ f ∈ s.emitted, f.size = 0) →
      ∀ f ∈ (scanDirectory fs fuel dir s).emitted, f.size = 0) ∧
    (∀ (statSize : String → Option Nat) (paths : List String),
      getFileSizes statSize paths
        = paths.filterMap (fun p => (statSize p).map (fun sz => (p, sz)))) :=
  ⟨fun fs fuel dir s hc he => (scan_size_zero fs fuel dir s hc he).2,
   fun statSize paths => getFileSizes_eq statSize paths⟩

/-- Witness for C10: a fresh scan of a concrete one-video directory
emits only zero sizes. -/
theorem c10_witness :
    ∀ f ∈ (scanDirectory [("/r", ⟨5, some [⟨"M.mkv", false⟩]⟩)] 1 "/r"
        { timings := ⟨0, 0, 0, 0, 0⟩, cache := [],
          emitted := [] }).emitted, f.size = 0 :=
  c10_sizes_zero_and_batch_stat.1 [("/r", ⟨5, some [⟨"M.mkv", false⟩]⟩)] 1
    "/r" { timings := ⟨0, 0, 0, 0, 0⟩, cache := [], emitted := [] }
    cacheZero_nil (by simp)

end MovieInfo
